import Mathlib

/-!
# Verification of the `filestore` content-addressable blob store

This file embeds the Go sources of the repository (`store.go` with the
sharded content-addressed store, and the companion file providing
`Store.absPath`) as Lean definitions and settles the frozen claims about
them.

Modelling conventions:
* Go byte strings are modelled as Lean `String`s; all the strings the store
  manipulates (content names, path components) are ASCII, where Go's
  byte-indexed slicing coincides with character-indexed slicing.
* File contents are `List Nat` (byte values).
* Machine integers (CRC32 / MD5 words) are `Nat` with explicit `% 2^32`
  masking.
* The operating system's filesystem is modelled explicitly; paths inside the
  store are segment lists relative to the store root.  Time is an `Int`.
-/

set_option autoImplicit false

namespace Filestore

/-! ## Go `path/filepath` lexical path operations (Unix rules)

`filepath.Clean`, `filepath.Join` and `filepath.Dir` are lexical string
functions; we embed them faithfully at the level of character lists.
`filepath.Separator` is `'/'` and `filepath.FromSlash` is the identity on
Unix, which is the platform the store targets. -/

/-- `strings.Split`/`strings.SplitN`-style splitting of a character list at
every occurrence of `sep`.  `splitSeg sep [] = [[]]`, matching Go's
`strings.Split("", sep) = [""]`. -/
def splitSeg (sep : Char) : List Char → List (List Char)
  | [] => [[]]
  | c :: cs =>
    if c = sep then [] :: splitSeg sep cs
    else
      match splitSeg sep cs with
      | [] => [[c]]
      | s :: ss => (c :: s) :: ss

/-- One step of `filepath.Clean`'s segment processing: push segment `seg`
onto the output stack `out`.  Empty and `"."` segments are dropped; `".."`
pops the last pushed segment when one is poppable, is dropped at the root of
a rooted path, and is otherwise kept (leading `..` of a relative path). -/
def cleanPush (rooted : Bool) (out : List (List Char)) (seg : List Char) : List (List Char) :=
  if seg = [] ∨ seg = ['.'] then out
  else if seg = ['.', '.'] then
    if out.getLast? = some ['.', '.'] then
      (if rooted then out.dropLast else out ++ [['.', '.']])
    else if out = [] then (if rooted then out else [['.', '.']])
    else out.dropLast
  else out ++ [seg]

/-- `filepath.Clean`'s segment pass: process all segments left to right. -/
def cleanSegs (rooted : Bool) (segs : List (List Char)) : List (List Char) :=
  segs.foldl (cleanPush rooted) []

/-- Whether a path begins with the separator (`path[0] == '/'`). -/
def isRooted : List Char → Bool
  | [] => false
  | c :: _ => c = '/'

/-- `filepath.Clean` on a character list (Unix rules). -/
def goCleanList (cs : List Char) : List Char :=
  if cs = [] then ['.']
  else
    let rooted := isRooted cs
    let out := cleanSegs rooted (splitSeg '/' cs)
    let body := List.intercalate ['/'] out
    if rooted then '/' :: body
    else if body = [] then ['.'] else body

/-- Go's `filepath.Clean`. -/
def goClean (s : String) : String := ⟨goCleanList s.data⟩

/-- Go's `filepath.Join`: drop leading empty elements, join the rest with
`'/'` and `Clean` the result; all elements empty gives `""`. -/
def goJoin (elems : List String) : String :=
  match elems.dropWhile (fun e => e = "") with
  | [] => ""
  | es => goClean ⟨List.intercalate ['/'] (es.map String.data)⟩

/-- Go's `filepath.Dir` (Unix): drop the trailing non-separator characters
and `Clean` what remains. -/
def goDir (s : String) : String :=
  goClean ⟨((s.data.reverse.dropWhile (fun c => c ≠ '/')).reverse)⟩

/-- Go's `strings.HasPrefix`. -/
def strHasPrefix (s pre : String) : Bool := pre.data.isPrefixOf s.data

/-- Go's `strings.SplitN(s, sep, n)` for `n ≥ 1` on character lists:
at most `n` pieces, the last piece keeps the remainder unsplit. -/
def splitN (sep : Char) : Nat → List Char → List (List Char)
  | 0, cs => [cs]
  | 1, cs => [cs]
  | Nat.succ n, cs =>
    match splitSeg sep cs with
    | [] => [cs]
    | s :: _ =>
      if s.length = cs.length then [cs]
      else s :: splitN sep n (cs.drop (s.length + 1))

/-- Character-index based slice `s[i:j]` of a Go string (the store only
slices ASCII content names, where bytes and characters coincide). -/
def strSlice (s : String) (i j : Nat) : String := ⟨(s.data.take j).drop i⟩

/-- `s[:n]` of a Go string. -/
def strTake (s : String) (n : Nat) : String := ⟨s.data.take n⟩

/-- `s[n:]` of a Go string. -/
def strDrop (s : String) (n : Nat) : String := ⟨s.data.drop n⟩

/-! ## The fingerprint engine

`Create` streams the input through `crc32.NewIEEE()` and `md5.New()` and
derives the content name as
`base64.RawURLEncoding.EncodeToString(append(crc32.Sum(nil), md5.Sum(nil)...))`
(4 CRC32 bytes big-endian followed by 16 MD5 bytes), the `MD5` field as the
lowercase hex digest, and `CRC32` as `Sum32()`.  The hash functions are the
standard-library algorithms, embedded here over `Nat` byte values with
explicit `% 2^32` masking. -/

/-- One byte step of the reflected IEEE CRC-32 (polynomial `0xEDB88320`),
as computed by Go's `hash/crc32` for `crc32.IEEE`. -/
def crc32Byte (crc b : Nat) : Nat :=
  (List.range 8).foldl
    (fun c _ => if c % 2 = 1 then Nat.xor (c / 2) 0xEDB88320 else c / 2)
    (Nat.xor crc (b % 256))

/-- Go's `crc32.Sum32` over the IEEE table: process all bytes from the
initial value `0xFFFFFFFF` and complement the result. -/
def crc32 (bs : List Nat) : Nat :=
  Nat.xor (bs.foldl crc32Byte 0xFFFFFFFF) 0xFFFFFFFF

/-- Go's `crc32.Sum(nil)`: the CRC-32 value as four big-endian bytes. -/
def crc32Bytes (bs : List Nat) : List Nat :=
  let c := crc32 bs
  [c / 2 ^ 24 % 256, c / 2 ^ 16 % 256, c / 2 ^ 8 % 256, c % 256]

/-- 32-bit left rotation. -/
def rotl32 (x n : Nat) : Nat :=
  Nat.lor (x * 2 ^ n % 2 ^ 32) (x / 2 ^ (32 - n))

/-- The MD5 sine-derived constants `K[0..63]` (RFC 1321). -/
def md5K : List Nat :=
  [0xd76aa478, 0xe8c7b756, 0x242070db, 0xc1bdceee,
   0xf57c0faf, 0x4787c62a, 0xa8304613, 0xfd469501,
   0x698098d8, 0x8b44f7af, 0xffff5bb1, 0x895cd7be,
   0x6b901122, 0xfd987193, 0xa679438e, 0x49b40821,
   0xf61e2562, 0xc040b340, 0x265e5a51, 0xe9b6c7aa,
   0xd62f105d, 0x02441453, 0xd8a1e681, 0xe7d3fbc8,
   0x21e1cde6, 0xc33707d6, 0xf4d50d87, 0x455a14ed,
   0xa9e3e905, 0xfcefa3f8, 0x676f02d9, 0x8d2a4c8a,
   0xfffa3942, 0x8771f681, 0x6d9d6122, 0xfde5380c,
   0xa4beea44, 0x4bdecfa9, 0xf6bb4b60, 0xbebfbc70,
   0x289b7ec6, 0xeaa127fa, 0xd4ef3085, 0x04881d05,
   0xd9d4d039, 0xe6db99e5, 0x1fa27cf8, 0xc4ac5665,
   0xf4292244, 0x432aff97, 0xab9423a7, 0xfc93a039,
   0x655b59c3, 0x8f0ccc92, 0xffeff47d, 0x85845dd1,
   0x6fa87e4f, 0xfe2ce6e0, 0xa3014314, 0x4e0811a1,
   0xf7537e82, 0xbd3af235, 0x2ad7d2bb, 0xeb86d391]

/-- The MD5 per-round shift amounts `s[0..63]` (RFC 1321). -/
def md5S : List Nat :=
  [7, 12, 17, 22, 7, 12, 17, 22, 7, 12, 17, 22, 7, 12, 17, 22,
   5, 9, 14, 20, 5, 9, 14, 20, 5, 9, 14, 20, 5, 9, 14, 20,
   4, 11, 16, 23, 4, 11, 16, 23, 4, 11, 16, 23, 4, 11, 16, 23,
   6, 10, 15, 21, 6, 10, 15, 21, 6, 10, 15, 21, 6, 10, 15, 21]

/-- The sixteen little-endian 32-bit words of a 64-byte MD5 block. -/
def md5Words (block : List Nat) : List Nat :=
  (List.range 16).map (fun j =>
    block.getD (4 * j) 0 + 256 * block.getD (4 * j + 1) 0 +
      65536 * block.getD (4 * j + 2) 0 + 16777216 * block.getD (4 * j + 3) 0)

/-- One of the 64 MD5 rounds on the state `(A, B, C, D)`. -/
def md5Step (M : List Nat) (st : Nat × Nat × Nat × Nat) (i : Nat) :
    Nat × Nat × Nat × Nat :=
  let A := st.1
  let B := st.2.1
  let C := st.2.2.1
  let D := st.2.2.2
  let FG : Nat × Nat :=
    if i < 16 then (Nat.lor (Nat.land B C) (Nat.land (Nat.xor B 0xFFFFFFFF) D), i)
    else if i < 32 then
      (Nat.lor (Nat.land D B) (Nat.land (Nat.xor D 0xFFFFFFFF) C), (5 * i + 1) % 16)
    else if i < 48 then (Nat.xor (Nat.xor B C) D, (3 * i + 5) % 16)
    else (Nat.xor C (Nat.lor B (Nat.xor D 0xFFFFFFFF)), 7 * i % 16)
  let F := (FG.1 + A + md5K.getD i 0 + M.getD FG.2 0) % 2 ^ 32
  (D, (B + rotl32 F (md5S.getD i 0)) % 2 ^ 32, B, C)

/-- Process one 64-byte block into the running MD5 state. -/
def md5Block (st : Nat × Nat × Nat × Nat) (block : List Nat) :
    Nat × Nat × Nat × Nat :=
  let r := (List.range 64).foldl (md5Step (md5Words block)) st
  ((st.1 + r.1) % 2 ^ 32, (st.2.1 + r.2.1) % 2 ^ 32,
    (st.2.2.1 + r.2.2.1) % 2 ^ 32, (st.2.2.2 + r.2.2.2) % 2 ^ 32)

/-- MD5 padding: a `0x80` byte, zeros to 56 mod 64, and the original length
in bits as eight little-endian bytes. -/
def md5Pad (msg : List Nat) : List Nat :=
  msg ++ [0x80] ++ List.replicate ((56 + 64 - (msg.length + 1) % 64) % 64) 0 ++
    (List.range 8).map (fun j => msg.length * 8 % 2 ^ 64 / 2 ^ (8 * j) % 256)

/-- Split a byte list into 64-byte chunks (structural recursion on a fuel
bound: each step consumes at least one element, so `l.length` steps always
suffice and the fuel-exhausted arm is unreachable). -/
def chunks64Go : Nat → List Nat → List (List Nat)
  | _, [] => []
  | 0, _ => []
  | fuel + 1, l => l.take 64 :: chunks64Go fuel (l.drop 64)

/-- Split a byte list into 64-byte chunks. -/
def chunks64 (l : List Nat) : List (List Nat) := chunks64Go l.length l

/-- Go's `md5.Sum(nil)`: the sixteen digest bytes (state words serialized
little-endian). -/
def md5Bytes (msg : List Nat) : List Nat :=
  let st := (chunks64 (md5Pad msg)).foldl md5Block
    (0x67452301, 0xefcdab89, 0x98badcfe, 0x10325476)
  ([st.1, st.2.1, st.2.2.1, st.2.2.2].map
    (fun w => (List.range 4).map (fun j => w / 2 ^ (8 * j) % 256))).flatten

/-- Lowercase hex digit. -/
def hexChar (n : Nat) : Char := "0123456789abcdef".data.getD n 'x'

/-- Go's `hex.EncodeToString`. -/
def hexString (bs : List Nat) : String :=
  ⟨(bs.map (fun b => [hexChar (b / 16), hexChar (b % 16)])).flatten⟩

/-- The URL-safe base64 alphabet of `base64.RawURLEncoding`. -/
def b64urlChars : List Char :=
  "ABCDEFGHIJKLMNOPQRSTUVWXYZabcdefghijklmnopqrstuvwxyz0123456789-_".data

/-- One base64 output character. -/
def b64 (n : Nat) : Char := b64urlChars.getD n 'A'

/-- Go's `base64.RawURLEncoding.EncodeToString`: URL-safe alphabet, no
padding. -/
def base64urlEncode : List Nat → List Char
  | [] => []
  | [b1] => [b64 (b1 / 4), b64 (b1 % 4 * 16)]
  | [b1, b2] => [b64 (b1 / 4), b64 (b1 % 4 * 16 + b2 / 16), b64 (b2 % 16 * 4)]
  | b1 :: b2 :: b3 :: rest =>
    b64 (b1 / 4) :: b64 (b1 % 4 * 16 + b2 / 16) ::
      b64 (b2 % 16 * 4 + b3 / 64) :: b64 (b3 % 64) :: base64urlEncode rest

/-- The content name computed by `Store.Create`:
`base64url(crc32 bytes ++ md5 bytes)` — 20 bytes, hence 27 characters. -/
def encodeName (bs : List Nat) : String :=
  ⟨base64urlEncode (crc32Bytes bs ++ md5Bytes bs)⟩

/-- External library function (`net/http.DetectContentType`), applied by
`Create` to the first up-to-512 peeked bytes.  Modelled as an abstract
constant result: no claim concerns the sniffed media type itself, only that
`Create` records some media type derived from the peeked prefix. -/
def detectContentType (_data : List Nat) : String := "application/octet-stream"

/-! ## Error kinds

Go errors relevant to the store, as a small enumeration:
`notExist` stands for `os.ErrNotExist` / `rest.ErrNotFound` (the package's
`ErrNotFound` sentinel), `permission` for `os.ErrPermission`, and `other`
for any other I/O failure. -/

/-- The kinds of Go error values the store produces or tests for. -/
inductive GErr where
  | notExist
  | permission
  | other
  deriving DecidableEq, Repr

/-! ## `Store.absPath` (the sandbox resolver of the companion source file)

```go
func (s *Store) absPath(name string) (string, error) {
    name = filepath.FromSlash(name)
    if strings.HasPrefix(name, filepathSeparator) {
        name = strings.TrimPrefix(name, filepathSeparator)
    }
    parts := strings.SplitN(name, filepathSeparator, 4)
    if len(parts) > 3 {
        parts = parts[:3]
    }
    name = strings.Join(parts, filepathSeparator)
    name = filepath.Join(s.root, name)
    name = filepath.Clean(name)
    if !strings.HasPrefix(name, s.root) {
        return "", os.ErrPermission
    }
    return name, nil
}
```
-/

deriving instance DecidableEq for Except

/-- The final containment check of `Store.absPath`: the canonicalized path
must have the store root as a literal string prefix, else `os.ErrPermission`. -/
def absPathCheck (root q : String) : Except GErr String :=
  if strHasPrefix q root then .ok q else .error .permission

/-- `Store.absPath` from the companion source file. -/
def absPath (root name : String) : Except GErr String :=
  let name₁ := if strHasPrefix name "/" then strDrop name 1 else name
  let parts := splitN '/' 4 name₁.data
  let parts := if parts.length > 3 then parts.take 3 else parts
  let name₂ : String := ⟨List.intercalate ['/'] parts⟩
  let name₃ := goClean (goJoin [root, name₂])
  absPathCheck root name₃

/-! ## The sharded path resolution of `store.go`

`Create` resolves the install path as
`filepath.Join(filepath.Join(s.root, prefix), fi.Name[:1], fi.Name[1:3], fi.Name[3:])`
(lines 45 and 96), while `Open` (line 128) and `Remove` (line 157) resolve
`filepath.Join(s.root, prefix, name[:1], name[1:3], name[3:])` directly. -/

/-- The install path computed by `Store.Create` (lines 45/96 of `store.go`). -/
def createResolve (root pre name : String) : String :=
  goJoin [goJoin [root, pre], strTake name 1, strSlice name 1 3, strDrop name 3]

/-- The lookup path computed by `Store.Open` (line 128 of `store.go`). -/
def openResolve (root pre name : String) : String :=
  goJoin [root, pre, strTake name 1, strSlice name 1 3, strDrop name 3]

/-- The lookup path computed by `Store.Remove` (line 157 of `store.go`). -/
def removeResolve (root pre name : String) : String :=
  goJoin [root, pre, strTake name 1, strSlice name 1 3, strDrop name 3]

/-- A path `p` lies inside the store root `root` (it is the root itself or a
descendant of it). -/
def insideRoot (root p : String) : Bool :=
  p = root || strHasPrefix p (root ++ "/")

/-- A segment that survives `Clean` untouched: nonempty, not `"."`, not `".."`. -/
def PlainSeg (s : List Char) : Prop := s ≠ [] ∧ s ≠ ['.'] ∧ s ≠ ['.', '.']

instance (s : List Char) : Decidable (PlainSeg s) := by
  unfold PlainSeg; infer_instance

/-- The shape invariant of `Clean`'s output stack: for rooted paths, only
plain segments; for relative paths, a block of leading `".."`s followed by
plain segments. -/
def OutShape : Bool → List (List Char) → Prop
  | true, out => ∀ x ∈ out, PlainSeg x
  | false, out =>
      ∃ k rest, out = List.replicate k ['.', '.'] ++ rest ∧ ∀ x ∈ rest, PlainSeg x

/-- A well-formed single path component: nonempty, not `"."` or `".."`, and
containing no separator. -/
def GoodSeg (s : String) : Prop := PlainSeg s.data ∧ '/' ∉ s.data

instance (s : String) : Decidable (GoodSeg s) := by
  unfold GoodSeg; infer_instance

/-- A well-formed relative path: every `/`-separated component is a plain
segment (so the path is nonempty, not rooted, with no empty, `"."` or `".."`
components). -/
def GoodRel (s : String) : Prop := ∀ x ∈ splitSeg '/' s.data, PlainSeg x

instance (s : String) : Decidable (GoodRel s) := by
  unfold GoodRel; infer_instance

/-- A canonical absolute store root: rooted, already clean, and not the bare
filesystem root `"/"`. -/
def CanonRoot (root : String) : Prop :=
  isRooted root.data = true ∧ goClean root = root ∧ root ≠ "/"

instance (root : String) : Decidable (CanonRoot root) := by
  unfold CanonRoot; infer_instance

/-! ## The filesystem model

The store's effects are modelled on an explicit filesystem: a tree of named
entries rooted at the store root.  Paths are segment lists relative to the
root (the string-level `filepath.Join` resolution of `store.go` corresponds
to these segments for well-formed components; claim C8's theorem relates the
two).  A `bad` entry models an entry whose `lstat` fails (e.g. a permission
fault), and a `locked` file models one whose removal fails — the fault
injections needed to exercise the error paths of `Clean`.  Directory children
are kept in list order; `filepath.Walk` visits entries in sorted name order,
so concrete trees in witnesses and counterexamples are written pre-sorted
(none of the settled claims depends on the visit order otherwise).  The store
root's parent directory lies outside the modelled tree: removing it always
fails. -/

/-- A filesystem node: a regular file (with modification time, content bytes
and a removability fault flag), a directory, or an entry whose `lstat`
reports the error `e`. -/
inductive FNode where
  | file (mtime : Int) (content : List Nat) (locked : Bool)
  | dir (children : List (String × FNode))
  | bad (e : GErr)
  deriving Repr

/-- The filesystem under the store root; `none` means the root itself does
not exist. -/
abbrev FS := Option (List (String × FNode))

/-- Association-list lookup among directory children. -/
def findC : List (String × FNode) → String → Option FNode
  | [], _ => none
  | (k, n) :: cs, k' => if k' = k then some n else findC cs k'

/-- Remove the child named `k` (directory entries are unique, so removing
every occurrence of the name coincides with the OS's removal of the entry). -/
def eraseC : List (String × FNode) → String → List (String × FNode)
  | [], _ => []
  | (k, n) :: cs, k' => if k' = k then eraseC cs k' else (k, n) :: eraseC cs k'

/-- Replace the child named `k` (or append it if absent). -/
def setC : List (String × FNode) → String → FNode → List (String × FNode)
  | [], k', n' => [(k', n')]
  | (k, n) :: cs, k', n' =>
    if k' = k then (k, n') :: cs else (k, n) :: setC cs k' n'

/-- Path lookup below a children list (`[]` addresses nothing). -/
def findE (cs : List (String × FNode)) : List String → Option FNode
  | [] => none
  | [k] => findC cs k
  | k :: p =>
    match findC cs k with
    | some (.dir dcs) => findE dcs p
    | _ => none

/-- Path lookup from the store root (`[]` addresses the root directory). -/
def FS.find? (fs : FS) (p : List String) : Option FNode :=
  match fs with
  | none => none
  | some cs => if p = [] then some (.dir cs) else findE cs p

/-- `os.Chtimes` below a children list: update a file's modification time;
directories accept the call without modelled effect; `bad` entries fail. -/
def chtimesE (cs : List (String × FNode)) : List String → Int → Option (List (String × FNode))
  | [], _ => none
  | [k], t =>
    match findC cs k with
    | some (.file _ c lk) => some (setC cs k (.file t c lk))
    | some (.dir _) => some cs
    | _ => none
  | k :: p, t =>
    match findC cs k with
    | some (.dir dcs) => (chtimesE dcs p t).map (fun dcs' => setC cs k (.dir dcs'))
    | _ => none

/-- `os.Chtimes(path, now, now)`.  `Create` and `Open` test only whether it
succeeds, so all failures map to one error kind. -/
def osChtimes : FS → List String → Int → Except GErr FS
  | none, _, _ => .error .notExist
  | some cs, p, t =>
    if p = [] then .ok (some cs)
    else
      match chtimesE cs p t with
      | some cs' => .ok (some cs')
      | none => .error .notExist

/-- `os.MkdirAll` below a children list: create missing directories along the
path; an existing non-directory blocks the chain. -/
def mkdirE (cs : List (String × FNode)) : List String → Except GErr (List (String × FNode))
  | [] => .ok cs
  | k :: p =>
    match findC cs k with
    | some (.dir dcs) => (mkdirE dcs p).map (fun d => setC cs k (.dir d))
    | some _ => .error .other
    | none => (mkdirE [] p).map (fun d => setC cs k (.dir d))

/-- `os.MkdirAll` from the store root; recreates the root when absent (the
root path is a prefix of the absolute path being created). -/
def osMkdirAll (fs : FS) (p : List String) : Except GErr FS :=
  (mkdirE (fs.getD []) p).map some

/-- `os.Remove` below a children list: removes a file (unless its removal
faults) or an empty directory. -/
def removeE (cs : List (String × FNode)) : List String → Except GErr (List (String × FNode))
  | [] => .error .other
  | [k] =>
    match findC cs k with
    | none => .error .notExist
    | some (.file _ _ lk) => if lk then .error .permission else .ok (eraseC cs k)
    | some (.bad e) => .error e
    | some (.dir []) => .ok (eraseC cs k)
    | some (.dir _) => .error .other
  | k :: p =>
    match findC cs k with
    | some (.dir dcs) => (removeE dcs p).map (fun d => setC cs k (.dir d))
    | none => .error .notExist
    | some _ => .error .other

/-- `os.Remove` from the store root; `[]` removes the (empty) root itself. -/
def osRemove : FS → List String → Except GErr FS
  | none, _ => .error .notExist
  | some cs, p =>
    if p = [] then (match cs with | [] => .ok none | _ => .error .other)
    else (removeE cs p).map some

/-- `os.Remove` with the error ignored (the deferred temp-file removal and
the prune loops discard removal errors). -/
def osRemoveQuiet (fs : FS) (p : List String) : FS :=
  match osRemove fs p with
  | .ok fs' => fs'
  | .error _ => fs

/-- Install a regular file at a path whose parent directories exist; an
existing directory at the target is never replaced. -/
def putE (cs : List (String × FNode)) : List String → FNode → Except GErr (List (String × FNode))
  | [], _ => .error .other
  | [k], n =>
    match findC cs k with
    | some (.dir _) => .error .other
    | _ => .ok (setC cs k n)
  | k :: p, n =>
    match findC cs k with
    | some (.dir dcs) => (putE dcs p n).map (fun d => setC cs k (.dir d))
    | _ => .error .notExist

/-- Create or overwrite a regular file (used for the temporary file). -/
def putFile : FS → List String → List Nat → Int → Except GErr FS
  | none, _, _, _ => .error .notExist
  | some cs, p, content, t => (putE cs p (.file t content false)).map some

/-- `os.Rename` of a regular file (the temporary file) onto a target path. -/
def osRename : FS → List String → List String → Except GErr FS
  | none, _, _ => .error .notExist
  | some cs, src, dst =>
    match findE cs src with
    | some (.file t c lk) =>
      match removeE cs src with
      | .error e => .error e
      | .ok cs' => (putE cs' dst (.file t c lk)).map some
    | _ => .error .notExist

/-! ## The store operations of `store.go` over the filesystem model -/

/-- The prefix as path segments: `filepath.Join(root, prefix)` appends the
prefix below the root when nonempty.  A prefix containing separators is kept
as one opaque component: the store joins it verbatim, and no settled claim
distinguishes its internal structure. -/
def prefixSegs (pre : String) : List String := if pre = "" then [] else [pre]

/-- The three sharded components `name[:1]`, `name[1:3]`, `name[3:]`. -/
def shardSegs (name : String) : List String :=
  [strTake name 1, strSlice name 1 3, strDrop name 3]

/-- The content-addressed path of a name below a prefix. -/
def blobPath (pre name : String) : List String := prefixSegs pre ++ shardSegs name

/-- `FileInfo` as returned by `Store.Create` (`store.go` lines 31–38). -/
structure FileInfo where
  Name : String
  Mimetype : String
  Size : Int
  CRC32 : Nat
  MD5 : String
  deriving DecidableEq, Repr

/-- The `FileInfo` computed from an input's bytes (`store.go` lines 78–87):
the base64url name over CRC32 and MD5, the sniffed media type, the byte
count, `Sum32()`, and the lowercase hex MD5 digest. -/
def mkFileInfo (bytes : List Nat) : FileInfo :=
  { Name := encodeName bytes
    Mimetype := detectContentType (bytes.take 512)
    Size := (bytes.length : Int)
    CRC32 := crc32 bytes
    MD5 := hexString (md5Bytes bytes) }

/-- An `io.Reader`: the bytes it will deliver, and an optional error it
reports after delivering them (a fault-free stream ends with `io.EOF`). -/
structure RStream where
  bytes : List Nat
  fail : Option GErr
  deriving Repr

/-- The maximum child-name length of a directory. -/
def maxKeyLen (cs : List (String × FNode)) : Nat :=
  cs.foldl (fun m kv => max m kv.1.length) 0

/-- A fresh `"~tmp"`-prefixed name for `ioutil.TempFile` (the model realizes
the OS's uniqueness guarantee by exceeding every existing name's length). -/
def tmpFresh (cs : List (String × FNode)) : String :=
  "~tmp" ++ ⟨List.replicate (maxKeyLen cs + 1) '0'⟩

/-- The children of the directory at `p` (empty if `p` is no directory). -/
def childrenAt (fs : FS) (p : List String) : List (String × FNode) :=
  match FS.find? fs p with
  | some (.dir cs) => cs
  | _ => []

/-- `Store.Create` (`store.go` lines 44–116): ensure the prefix directory,
create a temporary file, peek up to 512 bytes for the media type, copy the
stream while hashing, build the `FileInfo`, and either touch an existing blob
at the sharded path (dedup) or create the shard directories and rename the
temporary file into place; the temporary file is removed on every exit path
(the deferred `os.Remove` runs after a successful rename too, failing
silently). -/
def Store.create (fs : FS) (pre : String) (r : RStream) (now : Int) :
    Except GErr FileInfo × FS :=
  match osMkdirAll fs (prefixSegs pre) with
  | .error e => (.error e, fs)
  | .ok fs₁ =>
    let tnm := tmpFresh (childrenAt fs₁ (prefixSegs pre))
    let tp := prefixSegs pre ++ [tnm]
    match putFile fs₁ tp [] now with
    | .error e => (.error e, fs₁)
    | .ok fs₂ =>
      if r.fail.isSome ∧ r.bytes.length < 512 then
        -- bufio.Peek(512) returned a non-EOF error
        (.error (r.fail.getD .other), osRemoveQuiet fs₂ tp)
      else
        match putFile fs₂ tp r.bytes now with
        | .error e => (.error e, osRemoveQuiet fs₂ tp)
        | .ok fs₃ =>
          match r.fail with
          | some e =>
            -- bufferReader.WriteTo reported the stream's error after copying
            (.error e, osRemoveQuiet fs₃ tp)
          | none =>
            let fi := mkFileInfo r.bytes
            let bp := prefixSegs pre ++ shardSegs fi.Name
            match osChtimes fs₃ bp now with
            | .ok fs₄ => (.ok fi, osRemoveQuiet fs₄ tp)
            | .error _ =>
              match osMkdirAll fs₃ bp.dropLast with
              | .error e => (.error e, osRemoveQuiet fs₃ tp)
              | .ok fs₅ =>
                match osRename fs₅ tp bp with
                | .error e => (.error e, osRemoveQuiet fs₅ tp)
                | .ok fs₆ => (.ok fi, osRemoveQuiet fs₆ tp)

/-- `Store.Open` (`store.go` lines 123–150): reject names shorter than 27
without touching the filesystem, open the sharded path, fail with a
permission error on a directory, best-effort refresh the timestamps, and
return the content. -/
def Store.open (fs : FS) (pre name : String) (now : Int) :
    Except GErr (List Nat) × FS :=
  if name.length < 27 then (.error .notExist, fs)
  else
    match FS.find? fs (blobPath pre name) with
    | none => (.error .notExist, fs)
    | some (.bad e) => (.error e, fs)
    | some (.dir _) => (.error .permission, fs)
    | some (.file _ c _) =>
      match osChtimes fs (blobPath pre name) now with
      | .ok fs' => (.ok c, fs')
      | .error _ => (.ok c, fs)

/-- `Store.Remove` (`store.go` lines 153–170): reject names shorter than 27
without touching the filesystem, remove the file at the sharded path, then
try to remove its two parent directories, stopping at the first failure. -/
def Store.remove (fs : FS) (pre name : String) : Except GErr Unit × FS :=
  if name.length < 27 then (.error .notExist, fs)
  else
    match osRemove fs (blobPath pre name) with
    | .error e => (.error e, fs)
    | .ok fs₁ =>
      match osRemove fs₁ (blobPath pre name).dropLast with
      | .error _ => (.ok (), fs₁)
      | .ok fs₂ =>
        match osRemove fs₂ (blobPath pre name).dropLast.dropLast with
        | .error _ => (.ok (), fs₂)
        | .ok fs₃ => (.ok (), fs₃)

/-- The walk of `Store.Clean`'s `filepath.Walk` call with `store.go`'s walk
function, over one directory's children.  `acc` holds the entries already
visited and kept; the return value is the directory's surviving children (or
`none` if the directory removed itself by pruning), whether a further
parent-prune is requested (the prune chain from a deleted file spans exactly
its two parent directories), and the error that aborted the walk, if any
(a `bad` entry's `lstat` error is returned by the walk function, which aborts
the whole walk; a file whose removal fails is skipped and the walk
continues). -/
def walkEntries (valid : Int) :
    List (String × FNode) → List (String × FNode) →
      Option (List (String × FNode)) × Bool × Option GErr
  | acc, [] => (some acc, false, none)
  | acc, (nm, node) :: rest =>
    match node with
    | .bad e => (some (acc ++ (nm, node) :: rest), false, some e)
    | .file m c lk =>
      if valid < m ∨ lk then walkEntries valid (acc ++ [(nm, .file m c lk)]) rest
      else if acc.isEmpty && rest.isEmpty then (none, true, none)
      else walkEntries valid acc rest
    | .dir dcs =>
      match walkEntries valid [] dcs with
      | (some dcs', _, none) => walkEntries valid (acc ++ [(nm, .dir dcs')]) rest
      | (some dcs', _, some e) => (some (acc ++ (nm, .dir dcs') :: rest), false, some e)
      | (none, req, none) =>
        if req && acc.isEmpty && rest.isEmpty then (none, false, none)
        else walkEntries valid acc rest
      | (none, _, some e) => (some (acc ++ rest), false, some e)
termination_by _ l => sizeOf l
decreasing_by
  all_goals simp_wf
  all_goals omega

/-- `Store.Clean` (`store.go` lines 173–207): `lifetime ≤ 0` removes the
whole store root; otherwise walk the tree, deleting every file whose
modification time is at or before `now - lifetime` and pruning newly empty
parent directories; a missing store root reports success. -/
def Store.clean (fs : FS) (lifetime : Int) (now : Int) : Except GErr Unit × FS :=
  if lifetime ≤ 0 then (.ok (), none)
  else
    match fs with
    | none => (.ok (), none)
    | some cs =>
      match walkEntries (now - lifetime) [] cs with
      | (some cs', _, none) => (.ok (), some cs')
      | (some cs', _, some e) =>
        (if e = .notExist then .ok () else .error e, some cs')
      | (none, _, none) => (.ok (), none)
      | (none, _, some e) => (if e = .notExist then .ok () else .error e, none)

/-- The file (modification time, content, fault flag) at a path below a
children list, if any. -/
def fileAtE (cs : List (String × FNode)) (q : List String) :
    Option (Int × List Nat × Bool) :=
  match findE cs q with
  | some (.file m c lk) => some (m, c, lk)
  | _ => none

/-- The file at a path in the store, if any: the observable "blob set". -/
def fileAt (fs : FS) (q : List String) : Option (Int × List Nat × Bool) :=
  match FS.find? fs q with
  | some (.file m c lk) => some (m, c, lk)
  | _ => none

/-- No `bad` (lstat-faulting) entry anywhere in a children tree: on such a
tree the walk function of `Store.Clean` is never handed an entry error. -/
def noBadL : List (String × FNode) → Bool
  | [] => true
  | (_, .bad _) :: _ => false
  | (_, .file _ _ _) :: rest => noBadL rest
  | (_, .dir dcs) :: rest => noBadL dcs && noBadL rest
termination_by l => sizeOf l
decreasing_by
  all_goals simp_wf
  all_goals omega

/-- Two paths diverge: they differ at some component position covered by
both (so neither is a prefix of the other). -/
def divergeB : List String → List String → Bool
  | a :: as, b :: bs => if a = b then divergeB as bs else true
  | _, _ => false

/-! ## Lemmas about the lexical path operations -/

theorem intercalate_nil {α : Type} (sep : List α) :
    List.intercalate sep [] = [] := rfl

theorem intercalate_single {α : Type} (sep : List α) (a : List α) :
    List.intercalate sep [a] = a := by
  simp [List.intercalate, List.intersperse]

theorem intercalate_cons₂ {α : Type} (sep : List α) (a b : List α) (l : List (List α)) :
    List.intercalate sep (a :: b :: l) = a ++ sep ++ List.intercalate sep (b :: l) := by
  simp [List.intercalate, List.intersperse]

theorem intercalate_append_cons {α : Type} (sep : List α) (A : List (List α)) (b : List α)
    (B : List (List α)) (hA : A ≠ []) :
    List.intercalate sep (A ++ b :: B) =
      List.intercalate sep A ++ sep ++ List.intercalate sep (b :: B) := by
  induction A with
  | nil => exact absurd rfl hA
  | cons a A ih =>
    cases A with
    | nil => simp [intercalate_cons₂, intercalate_single]
    | cons a' A' =>
      have h₂ : ((a :: a' :: A') ++ b :: B) = a :: ((a' :: A') ++ b :: B) := by simp
      rw [h₂]
      have h₃ : (a' :: A') ++ b :: B = a' :: (A' ++ b :: B) := by simp
      rw [h₃, intercalate_cons₂, ← h₃, ih (by simp), intercalate_cons₂]
      simp [List.append_assoc]

theorem splitSeg_cons_sep (sep : Char) (cs : List Char) :
    splitSeg sep (sep :: cs) = [] :: splitSeg sep cs := by
  simp [splitSeg]

theorem splitSeg_ne_nil (sep : Char) (cs : List Char) : splitSeg sep cs ≠ [] := by
  cases cs with
  | nil => simp [splitSeg]
  | cons c cs =>
    by_cases h : c = sep
    · simp [splitSeg, h]
    · simp only [splitSeg, if_neg h]
      cases splitSeg sep cs <;> simp

theorem splitSeg_cons_ne (sep c : Char) (cs : List Char) {s : List Char}
    {ss : List (List Char)} (h : c ≠ sep) (hs : splitSeg sep cs = s :: ss) :
    splitSeg sep (c :: cs) = (c :: s) :: ss := by
  simp [splitSeg, if_neg h, hs]

theorem splitSeg_no_sep (sep : Char) {cs : List Char} (h : sep ∉ cs) :
    splitSeg sep cs = [cs] := by
  induction cs with
  | nil => rfl
  | cons c cs ih =>
    have hc : c ≠ sep := fun hc => h (hc ▸ List.mem_cons_self c cs)
    have hcs : sep ∉ cs := fun hm => h (List.mem_cons_of_mem _ hm)
    exact splitSeg_cons_ne sep c cs hc (ih hcs)

theorem mem_splitSeg_no_sep (sep : Char) (cs : List Char) :
    ∀ x ∈ splitSeg sep cs, sep ∉ x := by
  induction cs with
  | nil =>
    intro x hx
    simp only [splitSeg, List.mem_singleton] at hx
    simp [hx]
  | cons c cs ih =>
    intro x hx
    by_cases h : c = sep
    · subst h
      rw [splitSeg_cons_sep] at hx
      simp only [List.mem_cons] at hx
      rcases hx with hx | hx
      · simp [hx]
      · exact ih x hx
    · rcases hs : splitSeg sep cs with _ | ⟨s, ss⟩
      · exact absurd hs (splitSeg_ne_nil sep cs)
      · rw [splitSeg_cons_ne sep c cs h hs] at hx
        simp only [List.mem_cons] at hx
        rcases hx with hx | hx
        · subst hx
          intro hm
          simp only [List.mem_cons] at hm
          rcases hm with h' | h'
          · exact h h'.symm
          · exact ih s (hs ▸ List.mem_cons_self s ss) h'
        · exact ih x (hs ▸ List.mem_cons_of_mem s hx)

theorem splitSeg_append (sep : Char) (a b : List Char) :
    splitSeg sep (a ++ sep :: b) = splitSeg sep a ++ splitSeg sep b := by
  induction a with
  | nil => simp [splitSeg]
  | cons c a ih =>
    by_cases h : c = sep
    · subst h
      rw [List.cons_append, splitSeg_cons_sep, splitSeg_cons_sep, ih]
      rfl
    · rcases hs : splitSeg sep a with _ | ⟨s, ss⟩
      · exact absurd hs (splitSeg_ne_nil sep a)
      · have hab : splitSeg sep (a ++ sep :: b) = (s :: ss) ++ splitSeg sep b := by
          rw [ih, hs]
        rw [List.cons_append, splitSeg_cons_ne sep c _ h hab,
          splitSeg_cons_ne sep c a h hs]
        rfl

theorem intercalate_splitSeg (sep : Char) (cs : List Char) :
    List.intercalate [sep] (splitSeg sep cs) = cs := by
  induction cs with
  | nil => simp [splitSeg, intercalate_single]
  | cons c cs ih =>
    by_cases h : c = sep
    · subst h
      rw [splitSeg_cons_sep]
      rcases hs : splitSeg c cs with _ | ⟨s, ss⟩
      · exact absurd hs (splitSeg_ne_nil c cs)
      · rw [hs] at ih
        rw [intercalate_cons₂, ih]
        simp
    · rcases hs : splitSeg sep cs with _ | ⟨s, ss⟩
      · exact absurd hs (splitSeg_ne_nil sep cs)
      · rw [hs] at ih
        rw [splitSeg_cons_ne sep c cs h hs]
        cases ss with
        | nil =>
          rw [intercalate_single]
          rw [intercalate_single] at ih
          simp [ih]
        | cons s' ss' =>
          rw [intercalate_cons₂] at ih ⊢
          simpa using ih

theorem splitSeg_intercalate (sep : Char) (out : List (List Char)) (hne : out ≠ [])
    (hs : ∀ x ∈ out, sep ∉ x) :
    splitSeg sep (List.intercalate [sep] out) = out := by
  induction out with
  | nil => exact absurd rfl hne
  | cons a out ih =>
    cases out with
    | nil =>
      rw [intercalate_single]
      exact splitSeg_no_sep sep (hs a (List.mem_cons_self a []))
    | cons b out' =>
      rw [intercalate_cons₂, List.append_assoc, List.singleton_append, splitSeg_append,
        splitSeg_no_sep sep (hs a (List.mem_cons_self a _)),
        ih (by simp) (fun x hx => hs x (List.mem_cons_of_mem a hx))]
      rfl

theorem getLast?_mem' {α : Type} {l : List α} {a : α} (h : l.getLast? = some a) :
    a ∈ l := by
  have hne : l ≠ [] := by
    intro h'
    subst h'
    simp at h
  rw [List.getLast?_eq_getLast l hne] at h
  have h2 : l.getLast hne = a := by simpa using h
  exact h2 ▸ List.getLast_mem hne

theorem cleanPush_plain (r : Bool) (out : List (List Char)) {seg : List Char}
    (h : PlainSeg seg) : cleanPush r out seg = out ++ [seg] := by
  obtain ⟨h₁, h₂, h₃⟩ := h
  unfold cleanPush
  rw [if_neg (by simp [h₁, h₂]), if_neg h₃]

theorem foldl_cleanPush_plain (r : Bool) (B : List (List Char))
    (hB : ∀ x ∈ B, PlainSeg x) (acc : List (List Char)) :
    B.foldl (cleanPush r) acc = acc ++ B := by
  induction B generalizing acc with
  | nil => simp
  | cons b B ih =>
    rw [List.foldl_cons, cleanPush_plain r acc (hB b (List.mem_cons_self b B)),
      ih (fun x hx => hB x (List.mem_cons_of_mem b hx))]
    simp

theorem cleanPush_dots_on_dots (j : Nat) :
    cleanPush false (List.replicate j ['.', '.']) ['.', '.'] =
      List.replicate (j + 1) ['.', '.'] := by
  unfold cleanPush
  rw [if_neg (by simp), if_pos rfl]
  cases j with
  | zero => simp
  | succ j' =>
    rw [if_pos (by rw [List.getLast?_replicate]; simp), if_neg (by simp)]
    simp [List.replicate_succ']

theorem foldl_cleanPush_dots (k j : Nat) :
    (List.replicate k ['.', '.']).foldl (cleanPush false)
      (List.replicate j ['.', '.']) = List.replicate (j + k) ['.', '.'] := by
  induction k generalizing j with
  | zero => simp
  | succ k ih =>
    rw [List.replicate_succ, List.foldl_cons, cleanPush_dots_on_dots, ih (j + 1)]
    congr 1
    omega

theorem outShape_nil (r : Bool) : OutShape r [] := by
  cases r with
  | false => exact ⟨0, [], by simp, by simp⟩
  | true => simp [OutShape]

theorem outShape_dropLast (r : Bool) (out : List (List Char)) (h : OutShape r out)
    (hne : out ≠ []) (hl : out.getLast? ≠ some ['.', '.']) :
    OutShape r out.dropLast := by
  cases r with
  | true =>
    intro x hx
    exact h x (List.dropLast_subset out hx)
  | false =>
    obtain ⟨k, rest, hout, hrest⟩ := h
    have hrest_ne : rest ≠ [] := by
      intro hre
      subst hre
      rw [List.append_nil] at hout
      subst hout
      rcases Nat.eq_zero_or_pos k with hk | hk
      · subst hk; exact hne rfl
      · rw [List.getLast?_replicate, if_neg (Nat.pos_iff_ne_zero.mp hk)] at hl
        exact hl rfl
    rw [hout, List.dropLast_append_of_ne_nil _ hrest_ne]
    exact ⟨k, rest.dropLast, rfl, fun x hx => hrest x (List.dropLast_subset rest hx)⟩

theorem cleanPush_shape (r : Bool) (out : List (List Char)) (seg : List Char)
    (h : OutShape r out) : OutShape r (cleanPush r out seg) := by
  unfold cleanPush
  by_cases h₁ : seg = [] ∨ seg = ['.']
  · rw [if_pos h₁]; exact h
  · rw [if_neg h₁]
    by_cases h₂ : seg = ['.', '.']
    · subst h₂
      rw [if_pos rfl]
      by_cases hdd : out.getLast? = some ['.', '.']
      · rw [if_pos hdd]
        cases r with
        | true =>
          rw [if_pos rfl]
          intro x hx
          exact h x (List.dropLast_subset out hx)
        | false =>
          rw [if_neg (by simp)]
          obtain ⟨k, rest, hout, hrest⟩ := h
          have hrest_nil : rest = [] := by
            by_contra hne
            rw [hout, List.getLast?_append_of_ne_nil _ hne] at hdd
            exact (hrest _ (getLast?_mem' hdd)).2.2 rfl
          subst hrest_nil
          rw [List.append_nil] at hout
          subst hout
          exact ⟨k + 1, [], by simp [List.replicate_succ'], by simp⟩
      · rw [if_neg hdd]
        by_cases hnil : out = []
        · rw [if_pos hnil]
          cases r with
          | true => rw [if_pos rfl]; exact h
          | false =>
            rw [if_neg (by simp)]
            exact ⟨1, [], by simp, by simp⟩
        · rw [if_neg hnil]
          exact outShape_dropLast r out h hnil hdd
    · rw [if_neg h₂]
      push_neg at h₁
      have hplain : PlainSeg seg := ⟨h₁.1, h₁.2, h₂⟩
      cases r with
      | true =>
        intro x hx
        rcases List.mem_append.mp hx with hx | hx
        · exact h x hx
        · rw [List.mem_singleton.mp hx]; exact hplain
      | false =>
        obtain ⟨k, rest, hout, hrest⟩ := h
        refine ⟨k, rest ++ [seg], by rw [hout, List.append_assoc], ?_⟩
        intro x hx
        rcases List.mem_append.mp hx with hx | hx
        · exact hrest x hx
        · rw [List.mem_singleton.mp hx]; exact hplain

theorem foldl_cleanPush_shape (r : Bool) (segs : List (List Char))
    (out : List (List Char)) (h : OutShape r out) :
    OutShape r (segs.foldl (cleanPush r) out) := by
  induction segs generalizing out with
  | nil => exact h
  | cons s segs ih => exact ih _ (cleanPush_shape r out s h)

theorem cleanSegs_shape (r : Bool) (segs : List (List Char)) :
    OutShape r (cleanSegs r segs) :=
  foldl_cleanPush_shape r segs [] (outShape_nil r)

/-- Replaying `Clean`'s segment pass on its own output is the identity. -/
theorem cleanSegs_replay (r : Bool) (out : List (List Char)) (h : OutShape r out) :
    cleanSegs r out = out := by
  cases r with
  | true => exact foldl_cleanPush_plain true out h []
  | false =>
    obtain ⟨k, rest, hout, hrest⟩ := h
    subst hout
    unfold cleanSegs
    rw [List.foldl_append]
    have h₁ : (List.replicate k ['.', '.']).foldl (cleanPush false) [] =
        List.replicate k ['.', '.'] := by
      have := foldl_cleanPush_dots k 0
      simpa using this
    rw [h₁, foldl_cleanPush_plain false rest hrest]

theorem cleanPush_chars (r : Bool) (out : List (List Char)) (seg : List Char)
    (h : ∀ x ∈ out, '/' ∉ x ∧ x ≠ []) (hseg : '/' ∉ seg) :
    ∀ x ∈ cleanPush r out seg, '/' ∉ x ∧ x ≠ [] := by
  have hdrop : ∀ x ∈ out.dropLast, '/' ∉ x ∧ x ≠ [] :=
    fun x hx => h x (List.dropLast_subset out hx)
  have happ : ∀ x ∈ out ++ [['.', '.']], '/' ∉ x ∧ x ≠ [] := by
    intro x hx
    rcases List.mem_append.mp hx with hx | hx
    · exact h x hx
    · rw [List.mem_singleton.mp hx]
      exact ⟨by simp, by simp⟩
  have hdots : ∀ x ∈ ([['.', '.']] : List (List Char)), '/' ∉ x ∧ x ≠ [] := by
    intro x hx
    rw [List.mem_singleton.mp hx]
    exact ⟨by simp, by simp⟩
  unfold cleanPush
  by_cases h₁ : seg = [] ∨ seg = ['.']
  · rw [if_pos h₁]; exact h
  · rw [if_neg h₁]
    by_cases h₂ : seg = ['.', '.']
    · rw [if_pos h₂]
      split
      · split
        · exact hdrop
        · exact happ
      · split
        · split
          · exact h
          · exact hdots
        · exact hdrop
    · rw [if_neg h₂]
      intro x hx
      rcases List.mem_append.mp hx with hx | hx
      · exact h x hx
      · rw [List.mem_singleton.mp hx]
        exact ⟨hseg, fun he => h₁ (Or.inl he)⟩

theorem cleanSegs_chars (r : Bool) (segs : List (List Char))
    (hsegs : ∀ x ∈ segs, '/' ∉ x) :
    ∀ x ∈ cleanSegs r segs, '/' ∉ x ∧ x ≠ [] := by
  unfold cleanSegs
  have main : ∀ (ss : List (List Char)) (out : List (List Char)),
      (∀ x ∈ out, '/' ∉ x ∧ x ≠ []) → (∀ x ∈ ss, '/' ∉ x) →
      ∀ x ∈ ss.foldl (cleanPush r) out, '/' ∉ x ∧ x ≠ [] := by
    intro ss
    induction ss with
    | nil => intro out hout _; exact hout
    | cons s ss ih =>
      intro out hout hss
      rw [List.foldl_cons]
      exact ih _ (cleanPush_chars r out s hout (hss s (List.mem_cons_self s ss)))
        (fun x hx => hss x (List.mem_cons_of_mem s hx))
  exact main segs [] (by simp) hsegs

theorem goCleanList_eq {cs : List Char} (h : cs ≠ []) :
    goCleanList cs =
      (if isRooted cs then
        '/' :: List.intercalate ['/'] (cleanSegs (isRooted cs) (splitSeg '/' cs))
      else if List.intercalate ['/'] (cleanSegs (isRooted cs) (splitSeg '/' cs)) = []
      then ['.']
      else List.intercalate ['/'] (cleanSegs (isRooted cs) (splitSeg '/' cs))) := by
  rw [goCleanList, if_neg h]

theorem intercalate_ne_nil {out : List (List Char)} (hne : out ≠ [])
    (h : ∀ x ∈ out, x ≠ []) : List.intercalate ['/'] out ≠ [] := by
  cases out with
  | nil => exact absurd rfl hne
  | cons a out' =>
    cases out' with
    | nil =>
      rw [intercalate_single]
      exact h a (List.mem_cons_self a [])
    | cons b out'' =>
      rw [intercalate_cons₂]
      rcases ha : a with _ | ⟨c, t⟩
      · exact absurd ha (h a (List.mem_cons_self a _))
      · simp

theorem goCleanList_ne_nil (cs : List Char) : goCleanList cs ≠ [] := by
  by_cases h : cs = []
  · subst h; simp [goCleanList]
  · rw [goCleanList_eq h]
    split
    · simp
    · split
      · simp
      · assumption

theorem isRooted_append (a b : List Char) (h : a ≠ []) :
    isRooted (a ++ b) = isRooted a := by
  cases a with
  | nil => exact absurd rfl h
  | cons c t => rfl

theorem isRooted_intercalate (out : List (List Char)) (hne : out ≠ [])
    (h : ∀ x ∈ out, '/' ∉ x ∧ x ≠ []) :
    isRooted (List.intercalate ['/'] out) = false := by
  cases out with
  | nil => exact absurd rfl hne
  | cons a out' =>
    obtain ⟨ha₁, ha₂⟩ := h a (List.mem_cons_self a out')
    rcases hae : a with _ | ⟨c, t⟩
    · exact absurd hae ha₂
    · subst hae
      have hc : c ≠ '/' := fun he => ha₁ (he ▸ List.mem_cons_self c t)
      cases out' with
      | nil =>
        rw [intercalate_single]
        simp [isRooted, hc]
      | cons b out'' =>
        rw [intercalate_cons₂, List.cons_append, List.cons_append]
        simp [isRooted, hc]

theorem isRooted_goCleanList {cs : List Char} (h : cs ≠ []) :
    isRooted (goCleanList cs) = isRooted cs := by
  rw [goCleanList_eq h]
  cases hr : isRooted cs with
  | false =>
    rw [if_neg (by simp)]
    split
    · simp [isRooted]
    · rename_i hbody
      have hchars := cleanSegs_chars false (splitSeg '/' cs)
        (mem_splitSeg_no_sep '/' cs)
      have hout_ne : cleanSegs false (splitSeg '/' cs) ≠ [] := by
        intro he
        rw [he] at hbody
        exact hbody rfl
      exact isRooted_intercalate _ hout_ne hchars
  | true =>
    rw [if_pos rfl]
    simp [isRooted]

/-- Replaying `Clean` on an already-cleaned path gives the same segment
stack: the segment pass of `Clean` is idempotent. -/
theorem cleanSegs_splitSeg_goCleanList {cs : List Char} (h : cs ≠ []) :
    cleanSegs (isRooted cs) (splitSeg '/' (goCleanList cs)) =
      cleanSegs (isRooted cs) (splitSeg '/' cs) := by
  rw [goCleanList_eq h]
  cases hr : isRooted cs with
  | false =>
    have hshape := cleanSegs_shape false (splitSeg '/' cs)
    have hchars := cleanSegs_chars false (splitSeg '/' cs)
      (mem_splitSeg_no_sep '/' cs)
    rw [if_neg (by simp)]
    by_cases hbody : List.intercalate ['/'] (cleanSegs false (splitSeg '/' cs)) = []
    · rw [if_pos hbody]
      have hout_nil : cleanSegs false (splitSeg '/' cs) = [] := by
        by_contra hne
        exact intercalate_ne_nil hne (fun x hx => (hchars x hx).2) hbody
      rw [hout_nil]
      decide
    · rw [if_neg hbody]
      have hout_ne : cleanSegs false (splitSeg '/' cs) ≠ [] := by
        intro he
        rw [he] at hbody
        exact hbody rfl
      rw [splitSeg_intercalate '/' _ hout_ne (fun x hx => (hchars x hx).1)]
      exact cleanSegs_replay false _ hshape
  | true =>
    have hshape := cleanSegs_shape true (splitSeg '/' cs)
    have hchars := cleanSegs_chars true (splitSeg '/' cs)
      (mem_splitSeg_no_sep '/' cs)
    rw [if_pos rfl, splitSeg_cons_sep]
    by_cases hout_nil : cleanSegs true (splitSeg '/' cs) = []
    · rw [hout_nil]
      decide
    · rw [splitSeg_intercalate '/' _ hout_nil (fun x hx => (hchars x hx).1)]
      have hstep : cleanSegs true ([] :: cleanSegs true (splitSeg '/' cs)) =
          cleanSegs true (cleanSegs true (splitSeg '/' cs)) := by
        unfold cleanSegs
        rw [List.foldl_cons]
        congr 1
      rw [hstep]
      exact cleanSegs_replay true _ hshape

/-- Extending an already-cleaned path and cleaning again equals cleaning the
extended original path: `Clean (Clean s ++ "/" ++ t) = Clean (s ++ "/" ++ t)`. -/
theorem goCleanList_extend {cs : List Char} (t : List Char) (h : cs ≠ []) :
    goCleanList (goCleanList cs ++ '/' :: t) = goCleanList (cs ++ '/' :: t) := by
  have h₁ : goCleanList cs ≠ [] := goCleanList_ne_nil cs
  have h₂ : (goCleanList cs ++ '/' :: t) ≠ [] := by
    intro he
    exact h₁ (List.append_eq_nil.mp he).1
  have h₃ : (cs ++ '/' :: t) ≠ [] := by
    intro he
    exact h (List.append_eq_nil.mp he).1
  have hr₁ : isRooted (goCleanList cs ++ '/' :: t) = isRooted cs := by
    rw [isRooted_append _ _ h₁, isRooted_goCleanList h]
  have hr₂ : isRooted (cs ++ '/' :: t) = isRooted cs := isRooted_append _ _ h
  have hsegs : cleanSegs (isRooted cs) (splitSeg '/' (goCleanList cs ++ '/' :: t)) =
      cleanSegs (isRooted cs) (splitSeg '/' (cs ++ '/' :: t)) := by
    rw [splitSeg_append, splitSeg_append]
    unfold cleanSegs
    rw [List.foldl_append, List.foldl_append]
    show List.foldl _ (cleanSegs (isRooted cs) (splitSeg '/' (goCleanList cs))) _ =
      List.foldl _ (cleanSegs (isRooted cs) (splitSeg '/' cs)) _
    rw [cleanSegs_splitSeg_goCleanList h]
  rw [goCleanList_eq h₂, goCleanList_eq h₃, hr₁, hr₂, hsegs]

theorem str_ne_empty_iff {s : String} : s ≠ "" ↔ s.data ≠ [] := by
  rw [ne_eq, String.ext_iff]

theorem goClean_data (s : String) : (goClean s).data = goCleanList s.data := rfl

theorem goClean_ne_empty (s : String) : goClean s ≠ "" := by
  rw [str_ne_empty_iff, goClean_data]
  exact goCleanList_ne_nil s.data

theorem goJoin_cons_empty (es : List String) : goJoin ("" :: es) = goJoin es := by
  unfold goJoin
  rw [List.dropWhile_cons, if_pos (by simp)]

theorem goJoin_cons_ne {e : String} (es : List String) (h : e ≠ "") :
    goJoin (e :: es) = goClean ⟨List.intercalate ['/'] ((e :: es).map String.data)⟩ := by
  unfold goJoin
  rw [List.dropWhile_cons, if_neg (by simpa using h)]

theorem intercalate_slash_cons (A B : List Char) (l : List (List Char)) :
    List.intercalate ['/'] (A :: B :: l) = A ++ '/' :: List.intercalate ['/'] (B :: l) := by
  rw [intercalate_cons₂, List.append_assoc]
  rfl

/-- `filepath.Join` is associative in the way `Create`'s two-step join uses
it: joining `root` and `prefix` first and then the shard segments equals the
one-step join, provided the first shard segment is nonempty. -/
theorem goJoin_goJoin (a b x : String) (ys : List String) :
    goJoin (goJoin [a, b] :: x :: ys) = goJoin (a :: b :: x :: ys) := by
  by_cases ha : a = ""
  · subst ha
    rw [goJoin_cons_empty (b :: x :: ys)]
    by_cases hb : b = ""
    · subst hb
      have hinner : goJoin ["", ""] = "" := rfl
      rw [hinner, goJoin_cons_empty (x :: ys)]
    · have hinner : goJoin ["", b] = goClean b := by
        rw [goJoin_cons_empty [b], goJoin_cons_ne [] hb]
        show goClean ⟨List.intercalate ['/'] [b.data]⟩ = goClean b
        rw [intercalate_single]
      rw [hinner, goJoin_cons_ne (x :: ys) (goClean_ne_empty b),
        goJoin_cons_ne (x :: ys) hb]
      show goClean ⟨List.intercalate ['/'] ((goClean b).data :: x.data :: ys.map String.data)⟩ =
        goClean ⟨List.intercalate ['/'] (b.data :: x.data :: ys.map String.data)⟩
      rw [intercalate_slash_cons, intercalate_slash_cons]
      apply String.ext
      rw [goClean_data, goClean_data]
      exact goCleanList_extend _ (str_ne_empty_iff.mp hb)
  · have hinner : goJoin [a, b] = goClean ⟨a.data ++ '/' :: b.data⟩ := by
      rw [goJoin_cons_ne [b] ha]
      show goClean ⟨List.intercalate ['/'] [a.data, b.data]⟩ = _
      rw [intercalate_slash_cons, intercalate_single]
    have hinner_ne : goJoin [a, b] ≠ "" := by
      rw [hinner]; exact goClean_ne_empty _
    rw [goJoin_cons_ne (x :: ys) hinner_ne, goJoin_cons_ne (b :: x :: ys) ha]
    show goClean ⟨List.intercalate ['/']
        ((goJoin [a, b]).data :: x.data :: ys.map String.data)⟩ =
      goClean ⟨List.intercalate ['/'] (a.data :: b.data :: x.data :: ys.map String.data)⟩
    rw [intercalate_slash_cons, intercalate_slash_cons, intercalate_slash_cons]
    apply String.ext
    rw [goClean_data, goClean_data]
    have hdata : (goJoin [a, b]).data = goCleanList (a.data ++ '/' :: b.data) := by
      rw [hinner, goClean_data]
    rw [hdata]
    have hane : (a.data ++ '/' :: b.data) ≠ [] := by
      intro he
      exact (str_ne_empty_iff.mp ha) (List.append_eq_nil.mp he).1
    have hext := goCleanList_extend
      (t := List.intercalate ['/'] (x.data :: ys.map String.data)) hane
    rw [hext, List.append_assoc]
    rfl

/-- Folding `Clean`'s segment pass over plain-or-empty segments appends the
plain ones and drops the empty ones. -/
theorem foldl_cleanPush_plain_or_nil (r : Bool) (B : List (List Char))
    (hB : ∀ x ∈ B, PlainSeg x ∨ x = []) (acc : List (List Char)) :
    B.foldl (cleanPush r) acc = acc ++ B.filter (fun x => decide (x ≠ [])) := by
  induction B generalizing acc with
  | nil => simp
  | cons b B ih =>
    rcases hB b (List.mem_cons_self b B) with hb | hb
    · rw [List.foldl_cons, cleanPush_plain r acc hb,
        ih (fun x hx => hB x (List.mem_cons_of_mem b hx))]
      rw [List.filter_cons, if_pos (by simpa using hb.1)]
      simp
    · subst hb
      rw [List.foldl_cons]
      have hskip : cleanPush r acc [] = acc := by
        unfold cleanPush
        rw [if_pos (Or.inl rfl)]
      rw [hskip, ih (fun x hx => hB x (List.mem_cons_of_mem [] hx))]
      rw [List.filter_cons, if_neg (by simp)]

/-- Appending a `"/"`-separated sequence of plain-or-empty segments to a
canonical absolute root and cleaning keeps the root prefix literally and the
plain segments in order. -/
theorem goCleanList_canon (root : String) (hroot : CanonRoot root) (R : List Char)
    (hsp : ∀ x ∈ splitSeg '/' R, PlainSeg x ∨ x = [])
    (hne : (splitSeg '/' R).filter (fun x => decide (x ≠ [])) ≠ []) :
    goCleanList (root.data ++ '/' :: R) =
      root.data ++ '/' ::
        List.intercalate ['/'] ((splitSeg '/' R).filter (fun x => decide (x ≠ []))) := by
  obtain ⟨hrooted, hclean, hslash⟩ := hroot
  have hroot_ne : root.data ≠ [] := by
    intro he
    rw [he] at hrooted
    exact Bool.noConfusion hrooted
  have hcs_ne : root.data ++ '/' :: R ≠ [] := by
    intro he
    exact hroot_ne (List.append_eq_nil.mp he).1
  have hr : isRooted (root.data ++ '/' :: R) = true := by
    rw [isRooted_append _ _ hroot_ne]
    exact hrooted
  rw [goCleanList_eq hcs_ne, hr, if_pos rfl, splitSeg_append]
  unfold cleanSegs
  rw [List.foldl_append]
  show '/' :: List.intercalate ['/']
      (List.foldl (cleanPush true) (cleanSegs true (splitSeg '/' root.data)) (splitSeg '/' R)) = _
  rw [foldl_cleanPush_plain_or_nil true _ hsp]
  -- root.data = '/' :: intercalate OUT, where OUT is the cleaned root stack
  have hroot_eq : root.data = '/' ::
      List.intercalate ['/'] (cleanSegs true (splitSeg '/' root.data)) := by
    have hd : (goClean root).data = root.data := by rw [hclean]
    rw [goClean_data, goCleanList_eq hroot_ne, hrooted, if_pos rfl] at hd
    exact hd.symm
  have hout_ne : cleanSegs true (splitSeg '/' root.data) ≠ [] := by
    intro he
    rw [he] at hroot_eq
    exact hslash (String.ext hroot_eq)
  rcases hf : (splitSeg '/' R).filter (fun x => decide (x ≠ [])) with _ | ⟨f, fs⟩
  · exact absurd hf hne
  · rw [intercalate_append_cons ['/'] _ f fs hout_ne]
    conv_rhs => rw [hroot_eq]
    rw [List.cons_append]
    congr 1
    rw [List.append_assoc]
    rfl

/-- A canonical root followed by well-formed segments is a fixed point of
`Clean`. -/
theorem goCleanList_root_segs (root : String) (hroot : CanonRoot root)
    (segs : List (List Char)) (hsegs : ∀ u ∈ segs, PlainSeg u ∧ '/' ∉ u)
    (hne : segs ≠ []) :
    goCleanList (root.data ++ '/' :: List.intercalate ['/'] segs) =
      root.data ++ '/' :: List.intercalate ['/'] segs := by
  have hsplit : splitSeg '/' (List.intercalate ['/'] segs) = segs :=
    splitSeg_intercalate '/' segs hne (fun u hu => (hsegs u hu).2)
  have hfil : segs.filter (fun u => decide (u ≠ [])) = segs :=
    List.filter_eq_self.mpr (fun u hu => by simpa using (hsegs u hu).1.1)
  have h := goCleanList_canon root hroot (List.intercalate ['/'] segs)
    (by rw [hsplit]; exact fun u hu => Or.inl (hsegs u hu).1)
    (by rw [hsplit, hfil]; exact hne)
  rw [hsplit, hfil] at h
  exact h

/-- A doubled separator after a canonical root (the empty-prefix case of the
store's joins) is collapsed by `Clean`, leaving the sharded path. -/
theorem goCleanList_root_segs_dslash (root : String) (hroot : CanonRoot root)
    (segs : List (List Char)) (hsegs : ∀ u ∈ segs, PlainSeg u ∧ '/' ∉ u)
    (hne : segs ≠ []) :
    goCleanList (root.data ++ '/' :: '/' :: List.intercalate ['/'] segs) =
      root.data ++ '/' :: List.intercalate ['/'] segs := by
  have hsplit : splitSeg '/' ('/' :: List.intercalate ['/'] segs) = [] :: segs := by
    rw [splitSeg_cons_sep,
      splitSeg_intercalate '/' segs hne (fun u hu => (hsegs u hu).2)]
  have hfil : ([] :: segs).filter (fun u => decide (u ≠ [])) = segs := by
    rw [List.filter_cons, if_neg (by simp)]
    exact List.filter_eq_self.mpr (fun u hu => by simpa using (hsegs u hu).1.1)
  have h := goCleanList_canon root hroot ('/' :: List.intercalate ['/'] segs)
    (by
      rw [hsplit]
      intro u hu
      rcases List.mem_cons.mp hu with hu | hu
      · exact Or.inr hu
      · exact Or.inl (hsegs u hu).1)
    (by rw [hsplit, hfil]; exact hne)
  rw [hsplit, hfil] at h
  exact h

/-- With a canonical root, a well-formed nonempty prefix and well-formed
shard segments, `Open`'s join resolves to the literal sharded path
`root/prefix/name[:1]/name[1:3]/name[3:]`. -/
theorem openResolve_nonempty_prefix (root pre name : String) (hroot : CanonRoot root)
    (hpre : GoodRel pre) (h₁ : GoodSeg (strTake name 1))
    (h₂ : GoodSeg (strSlice name 1 3)) (h₃ : GoodSeg (strDrop name 3)) :
    openResolve root pre name =
      root ++ "/" ++ pre ++ "/" ++ strTake name 1 ++ "/" ++ strSlice name 1 3 ++
        "/" ++ strDrop name 3 := by
  have hroot_ne : root.data ≠ [] := by
    intro he
    have h := hroot.1
    rw [he] at h
    exact Bool.noConfusion h
  have hroot_ne' : root ≠ "" := str_ne_empty_iff.mpr hroot_ne
  have hsegs : ∀ u ∈ splitSeg '/' pre.data ++
      (strTake name 1).data :: [(strSlice name 1 3).data, (strDrop name 3).data],
      PlainSeg u ∧ '/' ∉ u := by
    intro u hu
    rcases List.mem_append.mp hu with hu | hu
    · exact ⟨hpre u hu, mem_splitSeg_no_sep '/' pre.data u hu⟩
    · simp only [List.mem_cons, List.not_mem_nil, or_false] at hu
      rcases hu with hu | hu | hu
      all_goals subst hu
      · exact ⟨h₁.1, h₁.2⟩
      · exact ⟨h₂.1, h₂.2⟩
      · exact ⟨h₃.1, h₃.2⟩
  have hseg_eq : List.intercalate ['/'] (splitSeg '/' pre.data ++
        (strTake name 1).data :: [(strSlice name 1 3).data, (strDrop name 3).data]) =
      pre.data ++ '/' :: List.intercalate ['/']
        ((strTake name 1).data :: [(strSlice name 1 3).data, (strDrop name 3).data]) := by
    rw [intercalate_append_cons _ _ _ _ (splitSeg_ne_nil '/' pre.data),
      intercalate_splitSeg, List.append_assoc]
    rfl
  unfold openResolve
  rw [goJoin_cons_ne _ hroot_ne']
  apply String.ext
  rw [goClean_data]
  show goCleanList (List.intercalate ['/']
    (root.data :: pre.data :: (strTake name 1).data ::
      (strSlice name 1 3).data :: [(strDrop name 3).data])) = _
  rw [intercalate_slash_cons, intercalate_slash_cons, ← hseg_eq,
    goCleanList_root_segs root hroot _ hsegs (by simp), hseg_eq]
  simp only [String.data_append, intercalate_slash_cons, intercalate_single,
    List.append_assoc, List.singleton_append]
  rfl

/-- With a canonical root and well-formed shard segments, `Open`'s join with
the empty prefix resolves to the literal sharded path
`root/name[:1]/name[1:3]/name[3:]`. -/
theorem openResolve_empty_prefix (root name : String) (hroot : CanonRoot root)
    (h₁ : GoodSeg (strTake name 1)) (h₂ : GoodSeg (strSlice name 1 3))
    (h₃ : GoodSeg (strDrop name 3)) :
    openResolve root "" name =
      root ++ "/" ++ strTake name 1 ++ "/" ++ strSlice name 1 3 ++
        "/" ++ strDrop name 3 := by
  have hroot_ne : root.data ≠ [] := by
    intro he
    have h := hroot.1
    rw [he] at h
    exact Bool.noConfusion h
  have hroot_ne' : root ≠ "" := str_ne_empty_iff.mpr hroot_ne
  have hsegs : ∀ u ∈ (strTake name 1).data ::
      [(strSlice name 1 3).data, (strDrop name 3).data], PlainSeg u ∧ '/' ∉ u := by
    intro u hu
    simp only [List.mem_cons, List.not_mem_nil, or_false] at hu
    rcases hu with hu | hu | hu
    all_goals subst hu
    · exact ⟨h₁.1, h₁.2⟩
    · exact ⟨h₂.1, h₂.2⟩
    · exact ⟨h₃.1, h₃.2⟩
  unfold openResolve
  rw [goJoin_cons_ne _ hroot_ne']
  apply String.ext
  rw [goClean_data]
  show goCleanList (List.intercalate ['/']
    (root.data :: ("" : String).data :: (strTake name 1).data ::
      (strSlice name 1 3).data :: [(strDrop name 3).data])) = _
  rw [intercalate_slash_cons]
  have hnil : ("" : String).data = [] := rfl
  rw [hnil, intercalate_slash_cons, List.nil_append,
    goCleanList_root_segs_dslash root hroot _ hsegs (by simp)]
  simp only [String.data_append, intercalate_slash_cons, intercalate_single,
    List.append_assoc, List.singleton_append]
  rfl

/-! ## Claim C2: path-traversal sandboxing of name resolution -/

/-- **C2, counterexample.**  The claim "name resolution for Open and Remove
never yields a filesystem path outside the store root" is false.  `store.go`'s
`Open`/`Remove` perform no containment check at all: the 27-character name
`"a/aa/../../../../etc/passwd"` passes the length check and resolves to
`/etc/passwd`, outside the root `/store`.  And the companion file's `absPath`
checks only a literal string prefix after canonicalization, so
`"../store2/secret"` resolves to `/store2/secret` — outside the root `/store`
but sharing it as a string prefix — and is returned without error. -/
theorem C2_counterexample :
    (openResolve "/store" "" "a/aa/../../../../etc/passwd" = "/etc/passwd" ∧
      removeResolve "/store" "" "a/aa/../../../../etc/passwd" = "/etc/passwd" ∧
      insideRoot "/store" "/etc/passwd" = false ∧
      27 ≤ ("a/aa/../../../../etc/passwd" : String).length) ∧
    (absPath "/store" "../store2/secret" = .ok "/store2/secret" ∧
      insideRoot "/store" "/store2/secret" = false) := by
  refine ⟨⟨?_, ?_, ?_, ?_⟩, ?_, ?_⟩ <;> decide

theorem absPathCheck_prefix (root q p : String) (h : absPathCheck root q = .ok p) :
    strHasPrefix p root = true := by
  unfold absPathCheck at h
  rcases hb : strHasPrefix q root with _ | _
  · rw [hb] at h
    simp at h
  · rw [hb] at h
    simp only [if_pos rfl] at h
    cases h
    exact hb

/-- **C2, amended.**  What `absPath` actually guarantees: every path it
returns has the store root as a literal string prefix (checked after
canonicalization); a name failing that check gets a permission error.  This
does not confine results to the root's subtree (sibling paths such as
`/store2/x` share the prefix), and the sharded `Open`/`Remove` of `store.go`
perform no containment check at all. -/
theorem C2_absPath_literal_prefix (root name p : String)
    (h : absPath root name = .ok p) : strHasPrefix p root = true := by
  unfold absPath at h
  exact absPathCheck_prefix _ _ _ h

theorem C2_absPath_witness :
    absPath "/store" "a/bc/defg" = .ok "/store/a/bc/defg" ∧
      strHasPrefix "/store/a/bc/defg" "/store" = true :=
  ⟨by decide, C2_absPath_literal_prefix "/store" "a/bc/defg" "/store/a/bc/defg" (by decide)⟩

/-! ## Claim C8: sharding determinism -/

/-- **C8.**  Sharding determinism: for every name of length at least 27 and
every prefix, `Create`'s install path (the nested
`Join(Join(root, prefix), name[:1], name[1:3], name[3:])`) and `Open`'s and
`Remove`'s lookup path (the flat five-way join) resolve to exactly the same
path; and for a canonical absolute root and well-formed prefix and name
components the common result is literally
`root/prefix/name[0]/name[1:3]/name[3:]` (with the prefix component omitted
when the prefix is empty). -/
theorem C8_sharding_determinism (root pre name : String)
    (hlen : 27 ≤ name.length) :
    createResolve root pre name = openResolve root pre name ∧
    removeResolve root pre name = openResolve root pre name ∧
    (CanonRoot root → GoodSeg (strTake name 1) → GoodSeg (strSlice name 1 3) →
      GoodSeg (strDrop name 3) →
      (openResolve root "" name =
        root ++ "/" ++ strTake name 1 ++ "/" ++ strSlice name 1 3 ++ "/" ++
          strDrop name 3) ∧
      (GoodRel pre →
        openResolve root pre name =
          root ++ "/" ++ pre ++ "/" ++ strTake name 1 ++ "/" ++
            strSlice name 1 3 ++ "/" ++ strDrop name 3)) := by
  refine ⟨goJoin_goJoin root pre _ _, rfl, ?_⟩
  intro hroot h₁ h₂ h₃
  exact ⟨ openResolve_empty_prefix root name hroot h₁ h₂ h₃,
    fun hpre => openResolve_nonempty_prefix root pre name hroot hpre h₁ h₂ h₃⟩

theorem C8_witness :
    createResolve "/store" "files" "ABCDEFGHIJKLMNOPQRSTUVWXYZa" =
        openResolve "/store" "files" "ABCDEFGHIJKLMNOPQRSTUVWXYZa" ∧
      openResolve "/store" "files" "ABCDEFGHIJKLMNOPQRSTUVWXYZa" =
        "/store/files/A/BC/DEFGHIJKLMNOPQRSTUVWXYZa" ∧
      openResolve "/store" "" "ABCDEFGHIJKLMNOPQRSTUVWXYZa" =
        "/store/A/BC/DEFGHIJKLMNOPQRSTUVWXYZa" := by
  have h := C8_sharding_determinism "/store" "files" "ABCDEFGHIJKLMNOPQRSTUVWXYZa"
    (by decide)
  have h3 := h.2.2 (by decide) (by decide) (by decide) (by decide)
  refine ⟨h.1, ?_, ?_⟩
  · rw [h3.2 (by decide)]
    decide
  · rw [h3.1]
    decide

/-! ## Frame lemmas for the filesystem operations -/

theorem findC_setC (cs : List (String × FNode)) (k : String) (n : FNode)
    (k' : String) :
    findC (setC cs k n) k' = if k' = k then some n else findC cs k' := by
  induction cs with
  | nil => rfl
  | cons kv cs ih =>
    obtain ⟨k₀, n₀⟩ := kv
    by_cases h0 : k = k₀
    · subst h0
      simp only [setC, if_pos rfl, findC]
      by_cases h : k' = k <;> simp [findC, h]
    · simp only [setC, if_neg h0, findC]
      by_cases h : k' = k₀
      · have hk : k' ≠ k := by
          rw [h]
          exact fun hh => h0 hh.symm
        have hk2 : k₀ ≠ k := fun hh => h0 hh.symm
        simp [findC, h, hk, hk2]
      · simp [findC, h, ih]

theorem findC_eraseC (cs : List (String × FNode)) (k k' : String) (hne : k' ≠ k) :
    findC (eraseC cs k) k' = findC cs k' := by
  induction cs with
  | nil => rfl
  | cons kv cs ih =>
    obtain ⟨k₀, n₀⟩ := kv
    by_cases h0 : k = k₀
    · subst h0
      simp only [eraseC, if_pos rfl, findC, if_neg hne]
      exact ih
    · simp only [eraseC, if_neg h0, findC]
      by_cases h : k' = k₀ <;> simp [h, ih]

theorem findC_eraseC_eq (cs : List (String × FNode)) (k : String) :
    findC (eraseC cs k) k = none := by
  induction cs with
  | nil => rfl
  | cons kv cs ih =>
    obtain ⟨k₀, n₀⟩ := kv
    by_cases h0 : k = k₀
    · simp only [eraseC, if_pos h0]
      exact ih
    · simp only [eraseC, if_neg h0, findC, if_neg h0]
      exact ih

theorem findC_eraseC_self (cs : List (String × FNode)) (k : String) :
    findC cs k = none → eraseC cs k = cs := by
  induction cs with
  | nil => intro _; rfl
  | cons kv cs ih =>
    obtain ⟨k₀, n₀⟩ := kv
    intro h
    by_cases h0 : k = k₀
    · rw [findC, if_pos h0] at h
      exact Option.noConfusion h
    · rw [findC, if_neg h0] at h
      rw [eraseC, if_neg h0, ih h]

theorem eraseC_setC_fresh (cs : List (String × FNode)) (k : String) (n : FNode)
    (h : findC cs k = none) : eraseC (setC cs k n) k = cs := by
  induction cs with
  | nil => simp [setC, eraseC]
  | cons kv cs ih =>
    obtain ⟨k₀, n₀⟩ := kv
    by_cases h0 : k = k₀
    · rw [findC, if_pos h0] at h
      exact Option.noConfusion h
    · rw [findC, if_neg h0] at h
      rw [setC, if_neg h0, eraseC, if_neg h0, ih h]

theorem setC_self (cs : List (String × FNode)) (k : String) (n : FNode)
    (h : findC cs k = some n) : setC cs k n = cs := by
  induction cs with
  | nil => exact Option.noConfusion h
  | cons kv cs ih =>
    obtain ⟨k₀, n₀⟩ := kv
    by_cases h0 : k = k₀
    · rw [findC, if_pos h0] at h
      rw [setC, if_pos h0]
      rw [Option.some_inj] at h
      rw [h]
    · rw [findC, if_neg h0] at h
      rw [setC, if_neg h0, ih h]

theorem fileAtE_nil (q : List String) : fileAtE [] q = none := by
  match q with
  | [] => rfl
  | [k] => rfl
  | k :: q1 :: q2 => rfl

theorem fileAt_eq (fs : FS) (q : List String) :
    fileAt fs q = if q = [] then none else fileAtE (fs.getD []) q := by
  match fs with
  | none =>
    by_cases h : q = []
    · simp [fileAt, FS.find?, h]
    · rw [if_neg h]
      show fileAt none q = fileAtE [] q
      rw [fileAtE_nil]
      simp [fileAt, FS.find?]
  | some cs =>
    by_cases h : q = []
    · simp [fileAt, FS.find?, h]
    · simp [fileAt, FS.find?, h, fileAtE]

theorem fileAtE_cons_cons (cs : List (String × FNode)) (k' : String) (q1 : String)
    (q2 : List String) :
    fileAtE cs (k' :: q1 :: q2) =
      match findC cs k' with
      | some (.dir dcs) => fileAtE dcs (q1 :: q2)
      | _ => none := by
  unfold fileAtE
  rw [show findE cs (k' :: q1 :: q2) =
    (match findC cs k' with
      | some (.dir dcs) => findE dcs (q1 :: q2)
      | _ => none) from rfl]
  rcases findC cs k' with _ | n
  · rfl
  · cases n <;> rfl

theorem fileAtE_single (cs : List (String × FNode)) (k' : String) :
    fileAtE cs [k'] =
      match findC cs k' with
      | some (.file m c lk) => some (m, c, lk)
      | _ => none := rfl

theorem fileAtE_setC_dir (cs : List (String × FNode)) (k : String)
    (dcs dcs' : List (String × FNode)) (hk : findC cs k = some (.dir dcs))
    (hsub : ∀ q, fileAtE dcs' q = fileAtE dcs q) :
    ∀ q, fileAtE (setC cs k (.dir dcs')) q = fileAtE cs q := by
  intro q
  match q with
  | [] => rfl
  | [k'] =>
    rw [fileAtE_single, fileAtE_single, findC_setC]
    by_cases h : k' = k
    · rw [if_pos h, h, hk]
    · rw [if_neg h]
  | k' :: q1 :: q2 =>
    rw [fileAtE_cons_cons, fileAtE_cons_cons, findC_setC]
    by_cases h : k' = k
    · rw [if_pos h, h, hk]
      show fileAtE dcs' (q1 :: q2) = fileAtE dcs (q1 :: q2)
      exact hsub (q1 :: q2)
    · rw [if_neg h]

theorem fileAtE_setC_dir_fresh (cs : List (String × FNode)) (k : String)
    (d : List (String × FNode)) (hk : findC cs k = none)
    (hd : ∀ q, fileAtE d q = none) :
    ∀ q, fileAtE (setC cs k (.dir d)) q = fileAtE cs q := by
  intro q
  match q with
  | [] => rfl
  | [k'] =>
    rw [fileAtE_single, fileAtE_single, findC_setC]
    by_cases h : k' = k
    · rw [if_pos h, h, hk]
    · rw [if_neg h]
  | k' :: q1 :: q2 =>
    rw [fileAtE_cons_cons, fileAtE_cons_cons, findC_setC]
    by_cases h : k' = k
    · rw [if_pos h, h, hk]
      show fileAtE d (q1 :: q2) = none
      exact hd (q1 :: q2)
    · rw [if_neg h]

theorem mkdirE_nil (p : List String) :
    ∃ d, mkdirE [] p = .ok d ∧ ∀ q, fileAtE d q = none := by
  induction p with
  | nil => exact ⟨[], rfl, fileAtE_nil⟩
  | cons k p ih =>
    obtain ⟨d, hd, hq⟩ := ih
    refine ⟨setC [] k (.dir d), ?_, ?_⟩
    · show (match findC [] k with
        | some (.dir dcs) => (mkdirE dcs p).map (fun d => setC [] k (.dir d))
        | some _ => .error .other
        | none => (mkdirE [] p).map (fun d => setC [] k (.dir d))) = _
      rw [show findC [] k = none from rfl, hd]
      rfl
    · intro q
      have hres := fileAtE_setC_dir_fresh [] k d rfl hq q
      rw [hres, fileAtE_nil]

theorem mkdirE_fileAtE (p : List String) (cs cs' : List (String × FNode))
    (h : mkdirE cs p = .ok cs') : ∀ q, fileAtE cs' q = fileAtE cs q := by
  induction p generalizing cs cs' with
  | nil =>
    cases h
    intro q
    rfl
  | cons k p ih =>
    rw [mkdirE] at h
    split at h
    · rename_i dcs hk
      rcases hm : mkdirE dcs p with e | dcs'
      · rw [hm] at h
        exact Except.noConfusion h
      · rw [hm] at h
        simp only [Except.map] at h
        cases h
        exact fileAtE_setC_dir cs k dcs dcs' hk (ih dcs dcs' hm)
    · exact Except.noConfusion h
    · rename_i hk
      obtain ⟨d, hd, hq⟩ := mkdirE_nil p
      rw [hd] at h
      simp only [Except.map] at h
      cases h
      exact fileAtE_setC_dir_fresh cs k d hk hq

theorem osMkdirAll_fileAt (fs : FS) (p : List String) (fs' : FS)
    (h : osMkdirAll fs p = .ok fs') : ∀ q, fileAt fs' q = fileAt fs q := by
  unfold osMkdirAll at h
  rcases hm : mkdirE (fs.getD []) p with e | cs'
  · rw [hm] at h
    exact Except.noConfusion h
  · rw [hm] at h
    cases h
    intro q
    rw [fileAt_eq, fileAt_eq]
    by_cases hq : q = []
    · rw [if_pos hq, if_pos hq]
    · rw [if_neg hq, if_neg hq]
      show fileAtE cs' q = _
      exact mkdirE_fileAtE p _ _ hm q

theorem putE_file (p : List String) :
    ∀ (cs cs' : List (String × FNode)) (m : Int) (c : List Nat) (lk : Bool),
      putE cs p (.file m c lk) = .ok cs' →
      fileAtE cs' p = some (m, c, lk) ∧
        ∀ q, q ≠ p → fileAtE cs' q = fileAtE cs q := by
  induction p with
  | nil =>
    intro cs cs' m c lk h
    exact Except.noConfusion h
  | cons k p ih =>
    intro cs cs' m c lk h
    cases p with
    | nil =>
      simp only [putE] at h
      split at h
      · exact Except.noConfusion h
      · rename_i hk
        cases h
        constructor
        · rw [fileAtE_single, findC_setC, if_pos rfl]
        · intro q hq
          match q with
          | [] => rfl
          | [k'] =>
            have hkk : k' ≠ k := by
              intro he
              exact hq (by rw [he])
            rw [fileAtE_single, fileAtE_single, findC_setC, if_neg hkk]
          | k' :: q1 :: q2 =>
            rw [fileAtE_cons_cons, fileAtE_cons_cons, findC_setC]
            by_cases hkk : k' = k
            · rw [if_pos hkk, hkk]
              rcases hfk : findC cs k with _ | n
              · rfl
              · cases n with
                | file m₀ c₀ lk₀ => rfl
                | dir dcs => exact absurd hfk (hk dcs)
                | bad e => rfl
            · rw [if_neg hkk]
    | cons q1 q2 =>
      simp only [putE] at h
      split at h
      · rename_i dcs hk
        rcases hp : putE dcs (q1 :: q2) (.file m c lk) with e | dcs'
        · rw [hp] at h
          exact Except.noConfusion h
        · rw [hp] at h
          simp only [Except.map] at h
          cases h
          obtain ⟨hat, hfr⟩ := ih dcs dcs' m c lk hp
          constructor
          · rw [fileAtE_cons_cons, findC_setC, if_pos rfl]
            exact hat
          · intro q hq
            match q with
            | [] => rfl
            | [k'] =>
              rw [fileAtE_single, fileAtE_single, findC_setC]
              by_cases hkk : k' = k
              · rw [if_pos hkk, hkk, hk]
              · rw [if_neg hkk]
            | k' :: r1 :: r2 =>
              rw [fileAtE_cons_cons, fileAtE_cons_cons, findC_setC]
              by_cases hkk : k' = k
              · rw [if_pos hkk, hkk, hk]
                show fileAtE dcs' (r1 :: r2) = fileAtE dcs (r1 :: r2)
                apply hfr
                intro he
                apply hq
                rw [hkk, he]
              · rw [if_neg hkk]
      · exact Except.noConfusion h

theorem chtimesE_fileAtE (p : List String) :
    ∀ (cs cs' : List (String × FNode)) (t : Int), chtimesE cs p t = some cs' →
      ∀ q, fileAtE cs' q =
        if q = p then
          (match fileAtE cs p with
          | some (_, c, lk) => some (t, c, lk)
          | none => none)
        else fileAtE cs q := by
  induction p with
  | nil =>
    intro cs cs' t h
    exact Option.noConfusion h
  | cons k p ih =>
    intro cs cs' t h
    cases p with
    | nil =>
      simp only [chtimesE] at h
      split at h
      · rename_i m c lk hk
        cases h
        intro q
        by_cases hq : q = [k]
        · subst hq
          rw [if_pos rfl, fileAtE_single, fileAtE_single, findC_setC, if_pos rfl, hk]
        · rw [if_neg hq]
          match q with
          | [] => rfl
          | [k'] =>
            have hkk : k' ≠ k := fun he => hq (by rw [he])
            rw [fileAtE_single, fileAtE_single, findC_setC, if_neg hkk]
          | k' :: q1 :: q2 =>
            rw [fileAtE_cons_cons, fileAtE_cons_cons, findC_setC]
            by_cases hkk : k' = k
            · rw [if_pos hkk, hkk, hk]
            · rw [if_neg hkk]
      · rename_i dcs hk
        cases h
        intro q
        by_cases hq : q = [k]
        · subst hq
          rw [if_pos rfl, fileAtE_single, hk]
        · rw [if_neg hq]
      · exact Option.noConfusion h
    | cons q1 q2 =>
      simp only [chtimesE] at h
      split at h
      · rename_i dcs hk
        rcases hc : chtimesE dcs (q1 :: q2) t with _ | dcs'
        · rw [hc] at h
          exact Option.noConfusion h
        · rw [hc] at h
          simp only [Option.map] at h
          cases h
          have hfr := ih dcs dcs' t hc
          intro q
          by_cases hq : q = k :: q1 :: q2
          · subst hq
            rw [if_pos rfl, fileAtE_cons_cons, fileAtE_cons_cons, findC_setC,
              if_pos rfl, hk]
            show fileAtE dcs' (q1 :: q2) = _
            rw [hfr (q1 :: q2), if_pos rfl]
          · rw [if_neg hq]
            match q with
            | [] => rfl
            | [k'] =>
              rw [fileAtE_single, fileAtE_single, findC_setC]
              by_cases hkk : k' = k
              · rw [if_pos hkk, hkk, hk]
              · rw [if_neg hkk]
            | k' :: r1 :: r2 =>
              rw [fileAtE_cons_cons, fileAtE_cons_cons, findC_setC]
              by_cases hkk : k' = k
              · rw [if_pos hkk, hkk, hk]
                show fileAtE dcs' (r1 :: r2) = fileAtE dcs (r1 :: r2)
                rw [hfr (r1 :: r2), if_neg]
                intro he
                exact hq (by rw [hkk, he])
              · rw [if_neg hkk]
      · exact Option.noConfusion h

theorem removeE_fileAtE (p : List String) :
    ∀ (cs cs' : List (String × FNode)), removeE cs p = .ok cs' →
      ∀ q, fileAtE cs' q = if q = p then none else fileAtE cs q := by
  induction p with
  | nil =>
    intro cs cs' h
    exact Except.noConfusion h
  | cons k p ih =>
    intro cs cs' h
    cases p with
    | nil =>
      simp only [removeE] at h
      split at h
      · exact Except.noConfusion h
      · rename_i m c lk hk
        split at h
        · exact Except.noConfusion h
        · cases h
          intro q
          by_cases hq : q = [k]
          · subst hq
            rw [if_pos rfl, fileAtE_single, findC_eraseC_eq]
          · rw [if_neg hq]
            match q with
            | [] => rfl
            | [k'] =>
              have hkk : k' ≠ k := fun he => hq (by rw [he])
              rw [fileAtE_single, fileAtE_single, findC_eraseC _ _ _ hkk]
            | k' :: q1 :: q2 =>
              rw [fileAtE_cons_cons, fileAtE_cons_cons]
              by_cases hkk : k' = k
              · rw [hkk, findC_eraseC_eq, hk]
              · rw [findC_eraseC _ _ _ hkk]
      · exact Except.noConfusion h
      · rename_i hk
        cases h
        intro q
        by_cases hq : q = [k]
        · subst hq
          rw [if_pos rfl, fileAtE_single, findC_eraseC_eq]
        · rw [if_neg hq]
          match q with
          | [] => rfl
          | [k'] =>
            have hkk : k' ≠ k := fun he => hq (by rw [he])
            rw [fileAtE_single, fileAtE_single, findC_eraseC _ _ _ hkk]
          | k' :: q1 :: q2 =>
            rw [fileAtE_cons_cons, fileAtE_cons_cons]
            by_cases hkk : k' = k
            · rw [hkk, findC_eraseC_eq, hk]
              simp [fileAtE_nil]
            · rw [findC_eraseC _ _ _ hkk]
      · exact Except.noConfusion h
    | cons q1 q2 =>
      simp only [removeE] at h
      split at h
      · rename_i dcs hk
        rcases hr : removeE dcs (q1 :: q2) with e | dcs'
        · rw [hr] at h
          exact Except.noConfusion h
        · rw [hr] at h
          simp only [Except.map] at h
          cases h
          have hfr := ih dcs dcs' hr
          intro q
          by_cases hq : q = k :: q1 :: q2
          · subst hq
            rw [if_pos rfl, fileAtE_cons_cons, findC_setC, if_pos rfl]
            show fileAtE dcs' (q1 :: q2) = none
            rw [hfr (q1 :: q2), if_pos rfl]
          · rw [if_neg hq]
            match q with
            | [] => rfl
            | [k'] =>
              rw [fileAtE_single, fileAtE_single, findC_setC]
              by_cases hkk : k' = k
              · rw [if_pos hkk, hkk, hk]
              · rw [if_neg hkk]
            | k' :: r1 :: r2 =>
              rw [fileAtE_cons_cons, fileAtE_cons_cons, findC_setC]
              by_cases hkk : k' = k
              · rw [if_pos hkk, hkk, hk]
                show fileAtE dcs' (r1 :: r2) = fileAtE dcs (r1 :: r2)
                rw [hfr (r1 :: r2), if_neg]
                intro he
                exact hq (by rw [hkk, he])
              · rw [if_neg hkk]
      · exact Except.noConfusion h
      · exact Except.noConfusion h

theorem chtimesE_ok (p : List String) :
    ∀ (cs : List (String × FNode)) (t : Int) (m : Int) (c : List Nat) (lk : Bool),
      fileAtE cs p = some (m, c, lk) → ∃ cs', chtimesE cs p t = some cs' := by
  induction p with
  | nil =>
    intro cs t m c lk h
    exact Option.noConfusion h
  | cons k p ih =>
    intro cs t m c lk h
    cases p with
    | nil =>
      rw [fileAtE_single] at h
      simp only [chtimesE]
      split at h
      · rename_i m₀ c₀ lk₀ hk
        rw [hk]
        exact ⟨_, rfl⟩
      · exact Option.noConfusion h
    | cons q1 q2 =>
      rw [fileAtE_cons_cons] at h
      simp only [chtimesE]
      split at h
      · rename_i dcs hk
        obtain ⟨dcs', hd⟩ := ih dcs t m c lk h
        refine ⟨setC cs k (.dir dcs'), ?_⟩
        rw [hd]
        rfl
      · exact Option.noConfusion h

theorem removeE_ok (p : List String) :
    ∀ (cs : List (String × FNode)) (m : Int) (c : List Nat),
      fileAtE cs p = some (m, c, false) → ∃ cs', removeE cs p = .ok cs' := by
  induction p with
  | nil =>
    intro cs m c h
    exact Option.noConfusion h
  | cons k p ih =>
    intro cs m c h
    cases p with
    | nil =>
      rw [fileAtE_single] at h
      simp only [removeE]
      split at h
      · rename_i m₀ c₀ lk₀ hk
        rw [hk]
        simp only [Option.some_inj, Prod.mk.injEq] at h
        obtain ⟨hm, hc, hlk⟩ := h
        subst hlk
        exact ⟨_, rfl⟩
      · exact Option.noConfusion h
    | cons q1 q2 =>
      rw [fileAtE_cons_cons] at h
      simp only [removeE]
      split at h
      · rename_i dcs hk
        obtain ⟨dcs', hd⟩ := ih dcs m c h
        rw [hk]
        refine ⟨setC cs k (.dir dcs'), ?_⟩
        show (removeE dcs (q1 :: q2)).map (fun d => setC cs k (.dir d)) = _
        rw [hd]
        rfl
      · exact Option.noConfusion h

theorem fileAt_some_iff (fs : FS) (q : List String) (m : Int) (c : List Nat)
    (lk : Bool) :
    fileAt fs q = some (m, c, lk) ↔ FS.find? fs q = some (.file m c lk) := by
  unfold fileAt
  rcases FS.find? fs q with _ | n
  · simp
  · cases n with
    | file m₀ c₀ lk₀ => simp
    | dir dcs => simp
    | bad e => simp

theorem osChtimes_fileAt (fs : FS) (p : List String) (t : Int) (fs' : FS)
    (h : osChtimes fs p t = .ok fs') :
    ∀ q, fileAt fs' q =
      if q = p then
        (match fileAt fs p with
        | some (_, c, lk) => some (t, c, lk)
        | none => none)
      else fileAt fs q := by
  cases fs with
  | none => exact Except.noConfusion h
  | some cs =>
    rw [osChtimes] at h
    by_cases hp : p = []
    · rw [if_pos hp] at h
      injection h with h
      subst h
      intro q
      by_cases hq : q = p
      · rw [if_pos hq, hq, hp]
        rfl
      · rw [if_neg hq]
    · rw [if_neg hp] at h
      rcases hc : chtimesE cs p t with _ | cs'
      · rw [hc] at h
        exact Except.noConfusion h
      · rw [hc] at h
        replace h : (Except.ok (some cs') : Except GErr FS) = .ok fs' := h
        injection h with h
        subst h
        intro q
        have hfr := chtimesE_fileAtE p cs cs' t hc q
        by_cases hq : q = p
        · subst hq
          rw [if_pos rfl] at hfr ⊢
          rw [fileAt_eq, if_neg hp, fileAt_eq, if_neg hp]
          exact hfr
        · rw [if_neg hq] at hfr ⊢
          by_cases hq0 : q = []
          · rw [fileAt_eq, fileAt_eq, if_pos hq0, if_pos hq0]
          · rw [fileAt_eq, fileAt_eq, if_neg hq0, if_neg hq0]
            exact hfr

theorem osChtimes_ok_of_file (fs : FS) (p : List String) (t : Int) (m : Int)
    (c : List Nat) (lk : Bool) (h : fileAt fs p = some (m, c, lk)) :
    ∃ fs', osChtimes fs p t = .ok fs' := by
  cases fs with
  | none => exact Option.noConfusion h
  | some cs =>
    have hp : p ≠ [] := by
      intro he
      rw [he] at h
      simp [fileAt, FS.find?] at h
    rw [fileAt_eq, if_neg hp] at h
    replace h : fileAtE cs p = some (m, c, lk) := h
    obtain ⟨cs', hc⟩ := chtimesE_ok p cs t m c lk h
    refine ⟨some cs', ?_⟩
    rw [osChtimes, if_neg hp, hc]

theorem findE_none_chtimesE (p : List String) :
    ∀ (cs : List (String × FNode)) (t : Int), findE cs p = none →
      chtimesE cs p t = none := by
  induction p with
  | nil => intro cs t _; rfl
  | cons k p ih =>
    intro cs t h
    cases p with
    | nil =>
      replace h : findC cs k = none := h
      rw [chtimesE, h]
    | cons q1 q2 =>
      rw [findE] at h
      rw [chtimesE]
      rcases hk : findC cs k with _ | n
      · rfl
      · rw [hk] at h
        cases n with
        | file m c lk => rfl
        | bad e => rfl
        | dir dcs =>
          replace h : findE dcs (q1 :: q2) = none := h
          show Option.map (fun dcs' => setC cs k (FNode.dir dcs')) (chtimesE dcs (q1 :: q2) t) = none
          rw [ih dcs t h]
          rfl
      all_goals simp

theorem osChtimes_err_of_none (fs : FS) (p : List String) (t : Int)
    (hp : p ≠ []) (h : FS.find? fs p = none) :
    osChtimes fs p t = .error .notExist := by
  cases fs with
  | none => rfl
  | some cs =>
    replace h : (if p = [] then some (FNode.dir cs) else findE cs p) = none := h
    rw [if_neg hp] at h
    rw [osChtimes, if_neg hp, findE_none_chtimesE p cs t h]

theorem osRemove_ne_nil (cs : List (String × FNode)) (p : List String)
    (hp : p ≠ []) : osRemove (some cs) p = Except.map some (removeE cs p) := by
  match cs with
  | [] =>
    show (if p = [] then (Except.ok none : Except GErr FS)
      else Except.map some (removeE [] p)) = _
    rw [if_neg hp]
  | kv :: cs₀ =>
    show (if p = [] then (Except.error GErr.other : Except GErr FS)
      else Except.map some (removeE (kv :: cs₀) p)) = _
    rw [if_neg hp]

theorem osRemove_fileAt (fs : FS) (p : List String) (fs' : FS)
    (h : osRemove fs p = .ok fs') :
    ∀ q, fileAt fs' q = if q = p then none else fileAt fs q := by
  cases fs with
  | none => exact Except.noConfusion h
  | some cs =>
    by_cases hp : p = []
    · subst hp
      match cs, h with
      | [], h =>
        replace h : (Except.ok none : Except GErr FS) = .ok fs' := h
        injection h with h
        subst h
        intro q
        by_cases hq : q = ([] : List String)
        · rw [if_pos hq]
          rfl
        · rw [if_neg hq]
          have hr : fileAt (some ([] : List (String × FNode))) q = none := by
            rw [fileAt_eq, if_neg hq]
            exact fileAtE_nil q
          rw [hr]
          rfl
      | kv :: cs₀, h =>
        replace h : (Except.error GErr.other : Except GErr FS) = .ok fs' := h
        exact Except.noConfusion h
    · rw [osRemove_ne_nil cs p hp] at h
      rcases hr : removeE cs p with e | cs'
      · rw [hr] at h
        exact Except.noConfusion h
      · rw [hr] at h
        replace h : (Except.ok (some cs') : Except GErr FS) = .ok fs' := h
        injection h with h
        subst h
        intro q
        have hfr := removeE_fileAtE p cs cs' hr q
        by_cases hq : q = p
        · rw [if_pos hq] at hfr ⊢
          have hq0 : q ≠ [] := fun he => hp (hq.symm.trans he)
          rw [fileAt_eq, if_neg hq0]
          exact hfr
        · rw [if_neg hq] at hfr ⊢
          by_cases hq0 : q = []
          · rw [fileAt_eq, fileAt_eq, if_pos hq0, if_pos hq0]
          · rw [fileAt_eq, fileAt_eq, if_neg hq0, if_neg hq0]
            exact hfr

theorem osRemove_ok_of_file (fs : FS) (p : List String) (m : Int) (c : List Nat)
    (h : fileAt fs p = some (m, c, false)) :
    ∃ fs', osRemove fs p = .ok fs' := by
  cases fs with
  | none => exact Option.noConfusion h
  | some cs =>
    have hp : p ≠ [] := by
      intro he
      rw [he] at h
      simp [fileAt, FS.find?] at h
    rw [fileAt_eq, if_neg hp] at h
    replace h : fileAtE cs p = some (m, c, false) := h
    obtain ⟨cs', hr⟩ := removeE_ok p cs m c h
    refine ⟨some cs', ?_⟩
    rw [osRemove_ne_nil cs p hp, hr]
    rfl

theorem osRemoveQuiet_frame (fs : FS) (p : List String) :
    ∀ q, q ≠ p → fileAt (osRemoveQuiet fs p) q = fileAt fs q := by
  intro q hq
  rcases hr : osRemove fs p with e | fs'
  · rw [osRemoveQuiet, hr]
  · rw [osRemoveQuiet, hr]
    show fileAt fs' q = fileAt fs q
    rw [osRemove_fileAt fs p fs' hr q, if_neg hq]

theorem osRemoveQuiet_file (fs : FS) (p : List String) (m : Int) (c : List Nat)
    (h : fileAt fs p = some (m, c, false)) :
    ∀ q, fileAt (osRemoveQuiet fs p) q = if q = p then none else fileAt fs q := by
  intro q
  obtain ⟨fs', hr⟩ := osRemove_ok_of_file fs p m c h
  rw [osRemoveQuiet, hr]
  show fileAt fs' q = _
  exact osRemove_fileAt fs p fs' hr q

theorem putFile_fileAt (fs : FS) (p : List String) (c : List Nat) (t : Int)
    (fs' : FS) (h : putFile fs p c t = .ok fs') :
    fileAt fs' p = some (t, c, false) ∧ ∀ q, q ≠ p → fileAt fs' q = fileAt fs q := by
  cases fs with
  | none => exact Except.noConfusion h
  | some cs =>
    rw [putFile] at h
    rcases hp : putE cs p (.file t c false) with e | cs'
    · rw [hp] at h
      exact Except.noConfusion h
    · rw [hp] at h
      replace h : (Except.ok (some cs') : Except GErr FS) = .ok fs' := h
      injection h with h
      subst h
      obtain ⟨hat, hfr⟩ := putE_file p cs cs' t c false hp
      have hp0 : p ≠ [] := by
        intro he
        rw [he] at hp
        exact Except.noConfusion hp
      constructor
      · rw [fileAt_eq, if_neg hp0]
        exact hat
      · intro q hq
        by_cases hq0 : q = []
        · rw [fileAt_eq, fileAt_eq, if_pos hq0, if_pos hq0]
        · rw [fileAt_eq, fileAt_eq, if_neg hq0, if_neg hq0]
          exact hfr q hq

theorem osRename_fileAt (fs : FS) (src dst : List String) (fs' : FS)
    (h : osRename fs src dst = .ok fs') :
    ∃ m c lk, fileAt fs src = some (m, c, lk) ∧
      ∀ q, fileAt fs' q =
        if q = dst then some (m, c, lk)
        else if q = src then none else fileAt fs q := by
  cases fs with
  | none => exact Except.noConfusion h
  | some cs =>
    rw [osRename] at h
    rcases hsrc : findE cs src with _ | n
    · rw [hsrc] at h
      exact Except.noConfusion h
    · rw [hsrc] at h
      cases n with
      | dir dcs => exact Except.noConfusion h
      | bad e => exact Except.noConfusion h
      | file t c lk =>
        rcases hr : removeE cs src with e | cs₁
        · rw [hr] at h
          exact Except.noConfusion h
        · rw [hr] at h
          replace h : Except.map some (putE cs₁ dst (FNode.file t c lk)) = .ok fs' := h
          rcases hp : putE cs₁ dst (.file t c lk) with e | cs₂
          · rw [hp] at h
            exact Except.noConfusion h
          · rw [hp] at h
            replace h : (Except.ok (some cs₂) : Except GErr FS) = .ok fs' := h
            injection h with h
            subst h
            have hsrc0 : src ≠ [] := by
              intro he
              rw [he] at hsrc
              exact Option.noConfusion hsrc
            have hdst0 : dst ≠ [] := by
              intro he
              rw [he] at hp
              exact Except.noConfusion hp
            refine ⟨t, c, lk, ?_, ?_⟩
            · rw [fileAt_eq, if_neg hsrc0]
              show fileAtE cs src = some (t, c, lk)
              rw [fileAtE, hsrc]
            · intro q
              obtain ⟨hat, hfr⟩ := putE_file dst cs₁ cs₂ t c lk hp
              have hrem := removeE_fileAtE src cs cs₁ hr
              by_cases hqd : q = dst
              · rw [if_pos hqd]
                have hq0 : q ≠ [] := fun he => hdst0 (hqd.symm.trans he)
                rw [fileAt_eq, if_neg hq0]
                show fileAtE cs₂ q = some (t, c, lk)
                rw [hqd]
                exact hat
              · rw [if_neg hqd]
                by_cases hq0 : q = []
                · rw [fileAt_eq, if_pos hq0]
                  have hqs : q ≠ src := fun he => hsrc0 (he.symm.trans hq0)
                  rw [if_neg hqs, fileAt_eq, if_pos hq0]
                · rw [fileAt_eq, if_neg hq0]
                  show fileAtE cs₂ q = _
                  rw [hfr q hqd, hrem q]
                  by_cases hqs : q = src
                  · rw [if_pos hqs, if_pos hqs]
                  · rw [if_neg hqs, if_neg hqs, fileAt_eq, if_neg hq0]
                    rfl

/-! ## Append, freshness and divergence lemmas -/

theorem findE_cons₂ (cs : List (String × FNode)) (k q1 : String)
    (q2 : List String) :
    findE cs (k :: q1 :: q2) =
      match findC cs k with
      | some (.dir dcs) => findE dcs (q1 :: q2)
      | _ => none := rfl

theorem findC_append (a b : List (String × FNode)) (k : String) :
    findC (a ++ b) k =
      match findC a k with
      | some n => some n
      | none => findC b k := by
  induction a with
  | nil => rfl
  | cons kv a ih =>
    rcases kv with ⟨k₀, n₀⟩
    by_cases hk : k = k₀
    · simp [findC, hk]
    · simp [findC, hk, ih]

theorem findE_append (a b : List (String × FNode)) (k : String) (p : List String) :
    findE (a ++ b) (k :: p) =
      match findC a k with
      | some _ => findE a (k :: p)
      | none => findE b (k :: p) := by
  cases p with
  | nil =>
    show findC (a ++ b) k = _
    rw [findC_append,
      show findE a [k] = findC a k from rfl,
      show findE b [k] = findC b k from rfl]
    rcases h : findC a k with _ | n
    · rfl
    · rfl
  | cons q1 q2 =>
    rw [findE_cons₂, findE_cons₂ a, findE_cons₂ b, findC_append]
    rcases h : findC a k with _ | n
    · rfl
    · cases n <;> rfl

theorem fileAtE_append (a b : List (String × FNode)) (k : String) (p : List String) :
    fileAtE (a ++ b) (k :: p) =
      match findC a k with
      | some _ => fileAtE a (k :: p)
      | none => fileAtE b (k :: p) := by
  rw [fileAtE, fileAtE, fileAtE, findE_append]
  rcases h : findC a k with _ | n
  · rfl
  · rfl

theorem foldl_max_ge (cs : List (String × FNode)) :
    ∀ init, init ≤ cs.foldl (fun m kv => max m kv.1.length) init := by
  induction cs with
  | nil => intro init; exact le_refl init
  | cons kv cs ih =>
    intro init
    rw [List.foldl_cons]
    exact le_trans (le_max_left _ _) (ih _)

theorem findC_length_le (cs : List (String × FNode)) (k : String) (n : FNode) :
    ∀ init, findC cs k = some n →
      k.length ≤ cs.foldl (fun m kv => max m kv.1.length) init := by
  induction cs with
  | nil => intro init h; exact Option.noConfusion h
  | cons kv cs ih =>
    intro init h
    rcases kv with ⟨k₀, n₀⟩
    rw [findC] at h
    rw [List.foldl_cons]
    by_cases hk : k = k₀
    · calc k.length ≤ max init k₀.length := by rw [hk]; exact le_max_right _ _
        _ ≤ _ := foldl_max_ge cs _
    · rw [if_neg hk] at h
      exact ih _ h

theorem findC_maxKeyLen (cs : List (String × FNode)) (k : String) (n : FNode)
    (h : findC cs k = some n) : k.length ≤ maxKeyLen cs :=
  findC_length_le cs k n 0 h

theorem tmpFresh_length (cs : List (String × FNode)) :
    (tmpFresh cs).length = 5 + maxKeyLen cs := by
  rw [tmpFresh, String.length_append]
  show 4 + (List.replicate (maxKeyLen cs + 1) '0').length = 5 + maxKeyLen cs
  rw [List.length_replicate]
  omega

theorem findC_tmpFresh (cs : List (String × FNode)) :
    findC cs (tmpFresh cs) = none := by
  rcases h : findC cs (tmpFresh cs) with _ | n
  · rfl
  · exfalso
    have h1 := findC_maxKeyLen cs (tmpFresh cs) n h
    have h2 := tmpFresh_length cs
    omega

theorem tmpFresh_ne_strTake (cs : List (String × FNode)) (name : String) :
    tmpFresh cs ≠ strTake name 1 := by
  intro he
  have h1 : (tmpFresh cs).length = 5 + maxKeyLen cs := tmpFresh_length cs
  have h2 : (strTake name 1).length ≤ 1 := by
    show (name.data.take 1).length ≤ 1
    simp [List.length_take]
  rw [he] at h1
  omega

theorem tp_ne_blobPath (pre t name : String) :
    prefixSegs pre ++ [t] ≠ blobPath pre name := by
  intro he
  have hl : (prefixSegs pre ++ [t]).length = (blobPath pre name).length := by
    rw [he]
  rw [blobPath] at hl
  simp [List.length_append, shardSegs] at hl

theorem divergeB_tp_bp (pre t name : String) (ht : t ≠ strTake name 1) :
    divergeB (prefixSegs pre ++ [t]) (blobPath pre name) = true := by
  by_cases hp : pre = ""
  · simp [prefixSegs, blobPath, shardSegs, hp, divergeB, ht]
  · simp [prefixSegs, blobPath, shardSegs, hp, divergeB, ht]

theorem findE_setC_ne (cs : List (String × FNode)) (k : String) (n : FNode)
    (k₁ : String) (qs : List String) (hk : k₁ ≠ k) :
    findE (setC cs k n) (k₁ :: qs) = findE cs (k₁ :: qs) := by
  have hfc : findC (setC cs k n) k₁ = findC cs k₁ := by
    rw [findC_setC, if_neg hk]
  cases qs with
  | nil => exact hfc
  | cons w ws => rw [findE_cons₂, findE_cons₂, hfc]

theorem putE_find_diverge (p : List String) :
    ∀ (q : List String) (cs cs' : List (String × FNode)) (n : FNode),
      putE cs p n = .ok cs' → divergeB p q = true → findE cs' q = findE cs q := by
  induction p with
  | nil =>
    intro q cs cs' n h hd
    exact Except.noConfusion h
  | cons k p ih =>
    intro q cs cs' n h hd
    match q, hd with
    | k₁ :: qs, hd =>
      replace hd : (if k = k₁ then divergeB p qs else true) = true := hd
      cases p with
      | nil =>
        rw [putE] at h
        have hk : ¬ k = k₁ := by
          intro he
          rw [if_pos he] at hd
          replace hd : false = true := hd
          exact Bool.noConfusion hd
        rcases hf : findC cs k with _ | n₀
        · rw [hf] at h
          replace h : (Except.ok (setC cs k n) :
              Except GErr (List (String × FNode))) = .ok cs' := h
          injection h with h
          subst h
          exact findE_setC_ne cs k n k₁ qs (fun he => hk he.symm)
        · rw [hf] at h
          cases n₀ with
          | dir d => exact Except.noConfusion h
          | file m c lk =>
            replace h : (Except.ok (setC cs k n) :
                Except GErr (List (String × FNode))) = .ok cs' := h
            injection h with h
            subst h
            exact findE_setC_ne cs k n k₁ qs (fun he => hk he.symm)
          | bad e =>
            replace h : (Except.ok (setC cs k n) :
                Except GErr (List (String × FNode))) = .ok cs' := h
            injection h with h
            subst h
            exact findE_setC_ne cs k n k₁ qs (fun he => hk he.symm)
      | cons p1 p2 =>
        rw [putE] at h
        · rcases hf : findC cs k with _ | n₀
          · rw [hf] at h
            exact Except.noConfusion h
          · rw [hf] at h
            cases n₀ with
            | file m c lk => exact Except.noConfusion h
            | bad e => exact Except.noConfusion h
            | dir dcs =>
              replace h : Except.map (fun d => setC cs k (FNode.dir d))
                  (putE dcs (p1 :: p2) n) = .ok cs' := h
              rcases hput : putE dcs (p1 :: p2) n with e | dcs'
              · rw [hput] at h
                exact Except.noConfusion h
              · rw [hput] at h
                replace h : (Except.ok (setC cs k (FNode.dir dcs')) :
                    Except GErr (List (String × FNode))) = .ok cs' := h
                injection h with h
                subst h
                by_cases hkk : k = k₁
                · subst hkk
                  replace hd : divergeB (p1 :: p2) qs = true := by
                    rw [if_pos rfl] at hd
                    exact hd
                  cases qs with
                  | nil =>
                    replace hd : false = true := hd
                    exact Bool.noConfusion hd
                  | cons w ws =>
                    rw [findE_cons₂, findE_cons₂, hf,
                      show findC (setC cs k (FNode.dir dcs')) k =
                        some (FNode.dir dcs') from by rw [findC_setC, if_pos rfl]]
                    show findE dcs' (w :: ws) = findE dcs (w :: ws)
                    exact ih (w :: ws) dcs dcs' n hput hd
                · exact findE_setC_ne cs k (FNode.dir dcs') k₁ qs
                    (fun he => hkk he.symm)
        · simp

theorem putFile_find_diverge (fs : FS) (p : List String) (c : List Nat) (t : Int)
    (fs' : FS) (h : putFile fs p c t = .ok fs') (q : List String)
    (hd : divergeB p q = true) : FS.find? fs' q = FS.find? fs q := by
  cases fs with
  | none => exact Except.noConfusion h
  | some cs =>
    rw [putFile] at h
    rcases hp : putE cs p (.file t c false) with e | cs'
    · rw [hp] at h
      exact Except.noConfusion h
    · rw [hp] at h
      replace h : (Except.ok (some cs') : Except GErr FS) = .ok fs' := h
      injection h with h
      subst h
      match p, q, hd with
      | p1 :: ps, q1 :: qs, hd =>
        show findE cs' (q1 :: qs) = findE cs (q1 :: qs)
        exact putE_find_diverge (p1 :: ps) (q1 :: qs) cs cs' _ hp hd

theorem mkdirAll_prefix (fs : FS) (pre : String) (fs₁ : FS)
    (h : osMkdirAll fs (prefixSegs pre) = .ok fs₁) :
    (∀ s rest, FS.find? fs₁ (prefixSegs pre ++ s :: rest) =
      FS.find? fs (prefixSegs pre ++ s :: rest)) ∧
    (∀ k, findC (childrenAt fs₁ (prefixSegs pre)) k = none →
      FS.find? fs (prefixSegs pre ++ [k]) = none) := by
  by_cases hp : pre = ""
  · subst hp
    rw [show prefixSegs "" = ([] : List String) from rfl] at h ⊢
    cases fs with
    | none =>
      replace h : (Except.ok (some ([] : List (String × FNode))) :
          Except GErr FS) = .ok fs₁ := h
      injection h with h
      subst h
      constructor
      · intro s rest
        show findE [] (s :: rest) = (none : Option FNode)
        cases rest with
        | nil => rfl
        | cons w ws => rfl
      · intro k _
        rfl
    | some cs =>
      replace h : (Except.ok (some cs) : Except GErr FS) = .ok fs₁ := h
      injection h with h
      subst h
      exact ⟨fun s rest => rfl, fun k hk => hk⟩
  · have hps : prefixSegs pre = [pre] := by rw [prefixSegs, if_neg hp]
    rw [hps] at h ⊢
    cases fs with
    | none =>
      replace h : (Except.ok (some [(pre, FNode.dir ([] : List (String × FNode)))]) :
          Except GErr FS) = .ok fs₁ := h
      injection h with h
      subst h
      constructor
      · intro s rest
        show findE [(pre, FNode.dir ([] : List (String × FNode)))]
          (pre :: s :: rest) = (none : Option FNode)
        rw [findE_cons₂,
          show findC [(pre, FNode.dir ([] : List (String × FNode)))] pre =
            some (FNode.dir []) from by simp [findC]]
        cases rest with
        | nil => rfl
        | cons w ws => rfl
      · intro k _
        rfl
    | some cs =>
      rw [show osMkdirAll (some cs) [pre] = (mkdirE cs [pre]).map some from rfl,
        mkdirE] at h
      rcases hf : findC cs pre with _ | n₀
      · rw [hf] at h
        replace h : (Except.ok (some (setC cs pre (FNode.dir []))) :
            Except GErr FS) = .ok fs₁ := h
        injection h with h
        subst h
        constructor
        · intro s rest
          have hL : FS.find? (some (setC cs pre (FNode.dir [])))
              (pre :: s :: rest) = none := by
            show findE (setC cs pre (FNode.dir [])) (pre :: s :: rest) = none
            rw [findE_cons₂, findC_setC, if_pos rfl]
            cases rest with
            | nil => rfl
            | cons w ws => rfl
          have hR : FS.find? (some cs) (pre :: s :: rest) = none := by
            show findE cs (pre :: s :: rest) = none
            rw [findE_cons₂, hf]
          show FS.find? (some (setC cs pre (FNode.dir []))) (pre :: s :: rest) =
            FS.find? (some cs) (pre :: s :: rest)
          rw [hL, hR]
        · intro k _
          show findE cs (pre :: [k]) = none
          rw [findE_cons₂, hf]
      · rw [hf] at h
        cases n₀ with
        | file m c lk => exact Except.noConfusion h
        | bad e => exact Except.noConfusion h
        | dir d =>
          replace h : (Except.ok (some (setC cs pre (FNode.dir d))) :
              Except GErr FS) = .ok fs₁ := h
          rw [setC_self cs pre (FNode.dir d) hf] at h
          injection h with h
          subst h
          constructor
          · intro s rest
            rfl
          · intro k hk
            have hc : childrenAt (some cs) [pre] = d := by
              rw [childrenAt,
                show FS.find? (some cs) [pre] = some (FNode.dir d) from hf]
            rw [hc] at hk
            show findE cs (pre :: [k]) = none
            rw [findE_cons₂, hf]
            show findC d k = none
            exact hk

theorem fileAt_none_of_find (fs : FS) (q : List String)
    (h : FS.find? fs q = none) : fileAt fs q = none := by
  rw [fileAt, h]

theorem fileAt_of_find_file (fs : FS) (q : List String) (m : Int) (c : List Nat)
    (lk : Bool) (h : FS.find? fs q = some (.file m c lk)) :
    fileAt fs q = some (m, c, lk) := by
  rw [fileAt, h]

theorem osRemoveQuiet_none (fs : FS) (p : List String)
    (h : fileAt fs p = none) : fileAt (osRemoveQuiet fs p) p = none := by
  rcases hr : osRemove fs p with e | fs₁
  · rw [osRemoveQuiet, hr]
    exact h
  · rw [osRemoveQuiet, hr]
    show fileAt fs₁ p = none
    rw [osRemove_fileAt fs p fs₁ hr p, if_pos rfl]

theorem blobPath_ne_nil (pre name : String) : blobPath pre name ≠ [] := by
  intro he
  have := congrArg List.length he
  simp [blobPath, shardSegs] at this

theorem create_ok_master (fs : FS) (pre : String) (r : RStream) (now : Int)
    (fi : FileInfo) (fs' : FS)
    (h : Store.create fs pre r now = (.ok fi, fs'))
    (hr : r.fail = none)
    (hpath : FS.find? fs (blobPath pre (encodeName r.bytes)) = none ∨
      ∃ m lk, FS.find? fs (blobPath pre (encodeName r.bytes)) =
        some (.file m r.bytes lk)) :
    fi = mkFileInfo r.bytes ∧
    (∃ lk, fileAt fs' (blobPath pre (encodeName r.bytes)) =
      some (now, r.bytes, lk)) ∧
    ∀ q, q ≠ blobPath pre (encodeName r.bytes) → fileAt fs' q = fileAt fs q := by
  rcases hmk : osMkdirAll fs (prefixSegs pre) with e | fs₁
  · simp only [Store.create, hmk] at h
    rw [Prod.mk.injEq] at h
    exact Except.noConfusion h.1
  · simp only [Store.create, hmk] at h
    obtain ⟨hpre_i, hpre_ii⟩ := mkdirAll_prefix fs pre fs₁ hmk
    have hfr1 : ∀ q, fileAt fs₁ q = fileAt fs q := osMkdirAll_fileAt fs _ fs₁ hmk
    have hfind1 : FS.find? fs₁ (blobPath pre (encodeName r.bytes)) =
        FS.find? fs (blobPath pre (encodeName r.bytes)) :=
      hpre_i (strTake (encodeName r.bytes) 1)
        [strSlice (encodeName r.bytes) 1 3, strDrop (encodeName r.bytes) 3]
    have hfresh_find : FS.find? fs
        (prefixSegs pre ++ [tmpFresh (childrenAt fs₁ (prefixSegs pre))]) = none :=
      hpre_ii _ (findC_tmpFresh _)
    have hfresh : fileAt fs
        (prefixSegs pre ++ [tmpFresh (childrenAt fs₁ (prefixSegs pre))]) = none :=
      fileAt_none_of_find _ _ hfresh_find
    have htp_bp : prefixSegs pre ++ [tmpFresh (childrenAt fs₁ (prefixSegs pre))] ≠
        blobPath pre (encodeName r.bytes) := tp_ne_blobPath pre _ _
    have hdiv : divergeB
        (prefixSegs pre ++ [tmpFresh (childrenAt fs₁ (prefixSegs pre))])
        (blobPath pre (encodeName r.bytes)) = true :=
      divergeB_tp_bp pre _ _ (tmpFresh_ne_strTake _ _)
    rcases hpf1 : putFile fs₁
        (prefixSegs pre ++ [tmpFresh (childrenAt fs₁ (prefixSegs pre))]) [] now
        with e | fs₂
    · simp only [hpf1] at h
      rw [Prod.mk.injEq] at h
      exact Except.noConfusion h.1
    · simp only [hpf1] at h
      obtain ⟨hat2, hfr2⟩ := putFile_fileAt fs₁ _ [] now fs₂ hpf1
      have hfind2 : FS.find? fs₂ (blobPath pre (encodeName r.bytes)) =
          FS.find? fs₁ (blobPath pre (encodeName r.bytes)) :=
        putFile_find_diverge fs₁ _ [] now fs₂ hpf1 _ hdiv
      simp only [hr, Option.isSome_none, Bool.false_eq_true, false_and,
        if_false] at h
      rcases hpf2 : putFile fs₂
          (prefixSegs pre ++ [tmpFresh (childrenAt fs₁ (prefixSegs pre))])
          r.bytes now with e | fs₃
      · simp only [hpf2] at h
        rw [Prod.mk.injEq] at h
        exact Except.noConfusion h.1
      · simp only [hpf2] at h
        obtain ⟨hat3, hfr3⟩ := putFile_fileAt fs₂ _ r.bytes now fs₃ hpf2
        have hfind3 : FS.find? fs₃ (blobPath pre (encodeName r.bytes)) =
            FS.find? fs₂ (blobPath pre (encodeName r.bytes)) :=
          putFile_find_diverge fs₂ _ r.bytes now fs₃ hpf2 _ hdiv
        have hfindfs3 : FS.find? fs₃ (blobPath pre (encodeName r.bytes)) =
            FS.find? fs (blobPath pre (encodeName r.bytes)) := by
          rw [hfind3, hfind2, hfind1]
        rcases hct : osChtimes fs₃
            (prefixSegs pre ++ shardSegs (mkFileInfo r.bytes).Name) now
            with e | fs₄
        · -- chtimes failed: install path
          simp only [hct] at h
          rw [show prefixSegs pre ++ shardSegs (mkFileInfo r.bytes).Name =
            blobPath pre (encodeName r.bytes) from rfl] at hct
          rcases hpath with hnone | ⟨m₀, lk₀, hfile⟩
          · rcases hmk2 : osMkdirAll fs₃
                (prefixSegs pre ++ shardSegs (mkFileInfo r.bytes).Name).dropLast
                with e₂ | fs₅
            · simp only [hmk2] at h
              rw [Prod.mk.injEq] at h
              exact Except.noConfusion h.1
            · simp only [hmk2] at h
              have hfr5 : ∀ q, fileAt fs₅ q = fileAt fs₃ q :=
                osMkdirAll_fileAt fs₃ _ fs₅ hmk2
              rcases hrn : osRename fs₅
                  (prefixSegs pre ++ [tmpFresh (childrenAt fs₁ (prefixSegs pre))])
                  (prefixSegs pre ++ shardSegs (mkFileInfo r.bytes).Name)
                  with e₂ | fs₆
              · simp only [hrn] at h
                rw [Prod.mk.injEq] at h
                exact Except.noConfusion h.1
              · simp only [hrn] at h
                rw [show prefixSegs pre ++ shardSegs (mkFileInfo r.bytes).Name =
                  blobPath pre (encodeName r.bytes) from rfl] at hrn
                rw [Prod.mk.injEq] at h
                obtain ⟨h1, h2⟩ := h
                injection h1 with h1
                subst h1
                subst h2
                obtain ⟨m', c', lk', hsrc, hall⟩ := osRename_fileAt fs₅ _ _ fs₆ hrn
                have hsrc' : fileAt fs₅
                    (prefixSegs pre ++ [tmpFresh (childrenAt fs₁ (prefixSegs pre))]) =
                    some (now, r.bytes, false) := by
                  rw [hfr5]
                  exact hat3
                rw [hsrc'] at hsrc
                injection hsrc with hsrc
                rw [Prod.mk.injEq, Prod.mk.injEq] at hsrc
                obtain ⟨hm', hc', hlk'⟩ := hsrc
                subst hm'
                subst hc'
                subst hlk'
                have h6bp : fileAt fs₆ (blobPath pre (encodeName r.bytes)) =
                    some (now, r.bytes, false) := by
                  rw [hall, if_pos rfl]
                have h6tp : fileAt fs₆
                    (prefixSegs pre ++ [tmpFresh (childrenAt fs₁ (prefixSegs pre))]) =
                    none := by
                  rw [hall, if_neg htp_bp, if_pos rfl]
                refine ⟨rfl, ⟨false, ?_⟩, ?_⟩
                · rw [osRemoveQuiet_frame fs₆ _ _ (fun he => htp_bp he.symm)]
                  exact h6bp
                · intro q hq
                  by_cases hqt : q =
                      prefixSegs pre ++ [tmpFresh (childrenAt fs₁ (prefixSegs pre))]
                  · subst hqt
                    rw [osRemoveQuiet_none fs₆ _ h6tp, hfresh]
                  · rw [osRemoveQuiet_frame fs₆ _ _ hqt, hall, if_neg hq,
                      if_neg hqt, hfr5, hfr3 q hqt, hfr2 q hqt, hfr1]
          · -- a file was at the blob path, so Chtimes cannot have failed
            exfalso
            have : fileAt fs₃ (blobPath pre (encodeName r.bytes)) =
                some (m₀, r.bytes, lk₀) :=
              fileAt_of_find_file _ _ _ _ _ (hfindfs3.trans hfile)
            obtain ⟨fs₄, hok⟩ := osChtimes_ok_of_file fs₃ _ now _ _ _ this
            rw [hok] at hct
            exact Except.noConfusion hct
        · -- chtimes succeeded: dedup path
          simp only [hct] at h
          rw [show prefixSegs pre ++ shardSegs (mkFileInfo r.bytes).Name =
            blobPath pre (encodeName r.bytes) from rfl] at hct
          rw [Prod.mk.injEq] at h
          obtain ⟨h1, h2⟩ := h
          injection h1 with h1
          subst h1
          subst h2
          rcases hpath with hnone | ⟨m₀, lk₀, hfile⟩
          · exfalso
            have : FS.find? fs₃ (blobPath pre (encodeName r.bytes)) = none :=
              hfindfs3.trans hnone
            rw [osChtimes_err_of_none fs₃ _ now (blobPath_ne_nil pre _) this] at hct
            exact Except.noConfusion hct
          · have hf3 : fileAt fs₃ (blobPath pre (encodeName r.bytes)) =
                some (m₀, r.bytes, lk₀) :=
              fileAt_of_find_file _ _ _ _ _ (hfindfs3.trans hfile)
            have hct4 := osChtimes_fileAt fs₃ _ now fs₄ hct
            have h4bp : fileAt fs₄ (blobPath pre (encodeName r.bytes)) =
                some (now, r.bytes, lk₀) := by
              rw [hct4, if_pos rfl, hf3]
            have h4tp : fileAt fs₄
                (prefixSegs pre ++ [tmpFresh (childrenAt fs₁ (prefixSegs pre))]) =
                some (now, r.bytes, false) := by
              rw [hct4, if_neg htp_bp]
              exact hat3
            have hquiet := osRemoveQuiet_file fs₄ _ now r.bytes h4tp
            refine ⟨rfl, ⟨lk₀, ?_⟩, ?_⟩
            · rw [hquiet, if_neg (fun he => htp_bp he.symm)]
              exact h4bp
            · intro q hq
              rw [hquiet q]
              by_cases hqt : q =
                  prefixSegs pre ++ [tmpFresh (childrenAt fs₁ (prefixSegs pre))]
              · rw [if_pos hqt, hqt, hfresh]
              · rw [if_neg hqt, hct4, if_neg hq, hfr3 q hqt, hfr2 q hqt, hfr1]

theorem putE_ok_of_file (p : List String) :
    ∀ (cs : List (String × FNode)) (m : Int) (c : List Nat) (lk : Bool)
      (n : FNode), fileAtE cs p = some (m, c, lk) → ∃ cs', putE cs p n = .ok cs' := by
  induction p with
  | nil =>
    intro cs m c lk n h
    exact Option.noConfusion h
  | cons k p ih =>
    intro cs m c lk n h
    cases p with
    | nil =>
      rw [fileAtE_single] at h
      rcases hf : findC cs k with _ | n₀
      · rw [hf] at h
        exact Option.noConfusion h
      · rw [hf] at h
        cases n₀ with
        | dir d => exact Option.noConfusion h
        | bad e => exact Option.noConfusion h
        | file m₁ c₁ lk₁ =>
          refine ⟨setC cs k n, ?_⟩
          rw [putE, hf]
    | cons q1 q2 =>
      rw [fileAtE_cons_cons] at h
      rcases hf : findC cs k with _ | n₀
      · rw [hf] at h
        exact Option.noConfusion h
      · rw [hf] at h
        cases n₀ with
        | bad e => exact Option.noConfusion h
        | file m₁ c₁ lk₁ => exact Option.noConfusion h
        | dir d =>
          obtain ⟨d', hd⟩ := ih d m c lk n h
          refine ⟨setC cs k (FNode.dir d'), ?_⟩
          rw [putE]
          · rw [hf]
            show Except.map (fun x => setC cs k (FNode.dir x))
              (putE d (q1 :: q2) n) = _
            rw [hd]
            rfl
          · simp

theorem putFile_ok_of_file (fs : FS) (p : List String) (m : Int) (c : List Nat)
    (lk : Bool) (c' : List Nat) (t : Int)
    (h : fileAt fs p = some (m, c, lk)) :
    ∃ fs₂, putFile fs p c' t = .ok fs₂ := by
  cases fs with
  | none => exact Option.noConfusion h
  | some cs =>
    have hp : p ≠ [] := by
      intro he
      rw [he] at h
      simp [fileAt, FS.find?] at h
    rw [fileAt_eq, if_neg hp] at h
    replace h : fileAtE cs p = some (m, c, lk) := h
    obtain ⟨cs', hc⟩ := putE_ok_of_file p cs m c lk (.file t c' false) h
    refine ⟨some cs', ?_⟩
    rw [putFile, hc]
    rfl

theorem prefix_dir_of_deep (fs : FS) (pre : String) (p : List String) (n : FNode)
    (hp : p ≠ []) (h : FS.find? fs (prefixSegs pre ++ p) = some n) :
    osMkdirAll fs (prefixSegs pre) = .ok fs ∧
    FS.find? fs (prefixSegs pre) = some (.dir (childrenAt fs (prefixSegs pre))) := by
  cases fs with
  | none =>
    exfalso
    exact Option.noConfusion h
  | some cs =>
    by_cases hpre : pre = ""
    · subst hpre
      rw [show prefixSegs "" = ([] : List String) from rfl]
      exact ⟨rfl, rfl⟩
    · have hps : prefixSegs pre = [pre] := by rw [prefixSegs, if_neg hpre]
      rw [hps] at h ⊢
      match p, hp with
      | w :: ws, _ =>
        replace h : findE cs (pre :: w :: ws) = some n := h
        rw [findE_cons₂] at h
        rcases hf : findC cs pre with _ | n₀
        · rw [hf] at h
          exact Option.noConfusion h
        · rw [hf] at h
          cases n₀ with
          | file m c lk => exact Option.noConfusion h
          | bad e => exact Option.noConfusion h
          | dir d =>
            have hfind : FS.find? (some cs) [pre] = some (FNode.dir d) := hf
            have hchild : childrenAt (some cs) [pre] = d := by
              rw [childrenAt, hfind]
            constructor
            · have hmk : mkdirE cs [pre] = .ok cs := by
                rw [mkdirE, hf]
                show Except.ok (setC cs pre (FNode.dir d)) = .ok cs
                rw [setC_self cs pre _ hf]
              show Except.map some (mkdirE cs [pre]) = .ok (some cs)
              rw [hmk]
              rfl
            · rw [hchild]
              exact hfind

theorem putFile_fresh_ok (fs : FS) (pre : String) (k : String) (c : List Nat)
    (t : Int)
    (hdir : FS.find? fs (prefixSegs pre) =
      some (.dir (childrenAt fs (prefixSegs pre))))
    (hk : findC (childrenAt fs (prefixSegs pre)) k = none) :
    ∃ fs₂, putFile fs (prefixSegs pre ++ [k]) c t = .ok fs₂ := by
  cases fs with
  | none => exact Option.noConfusion hdir
  | some cs =>
    by_cases hpre : pre = ""
    · subst hpre
      rw [show prefixSegs "" = ([] : List String) from rfl] at hdir hk ⊢
      have hcs : childrenAt (some cs) [] = cs := rfl
      rw [hcs] at hk
      refine ⟨some (setC cs k (.file t c false)), ?_⟩
      show Except.map some (putE cs [k] (.file t c false)) = _
      rw [putE, hk]
      rfl
    · have hps : prefixSegs pre = [pre] := by rw [prefixSegs, if_neg hpre]
      rw [hps] at hdir hk ⊢
      have hf : findC cs pre = some (FNode.dir (childrenAt (some cs) [pre])) := hdir
      rw [show childrenAt (some cs) [pre] =
        (match FS.find? (some cs) [pre] with
          | some (.dir d) => d
          | _ => []) from rfl] at hf hk
      rcases hfc : findC cs pre with _ | n₀
      · rw [show FS.find? (some cs) [pre] = findC cs pre from rfl, hfc] at hf
        exact Option.noConfusion hf
      · rw [show FS.find? (some cs) [pre] = findC cs pre from rfl, hfc] at hf hk
        cases n₀ with
        | file m₁ c₁ lk₁ =>
          injection hf with hf
          exact FNode.noConfusion hf
        | bad e =>
          injection hf with hf
          exact FNode.noConfusion hf
        | dir d =>
          refine ⟨some (setC cs pre (.dir (setC d k (.file t c false)))), ?_⟩
          show Except.map some (putE cs (pre :: [k]) (.file t c false)) = _
          rw [putE]
          · rw [hfc]
            show Except.map some (Except.map (fun x => setC cs pre (FNode.dir x))
              (putE d [k] (.file t c false))) = _
            rw [putE, hk]
            rfl
          · simp

/-! ## Length of the content name -/

theorem crc32Bytes_length (bs : List Nat) : (crc32Bytes bs).length = 4 := rfl

theorem md5Bytes_length (msg : List Nat) : (md5Bytes msg).length = 16 := rfl

theorem base64urlEncode_length (bs : List Nat) :
    (base64urlEncode bs).length = (bs.length * 4 + 2) / 3 := by
  induction bs using base64urlEncode.induct with
  | case1 => rfl
  | case2 b1 =>
    rw [base64urlEncode]
    simp only [List.length_cons, List.length_nil]
  | case3 b1 b2 =>
    rw [base64urlEncode]
    simp only [List.length_cons, List.length_nil]
  | case4 b1 b2 b3 rest ih =>
    rw [base64urlEncode]
    simp only [List.length_cons]
    rw [ih]
    omega

theorem encodeName_length (bs : List Nat) : (encodeName bs).length = 27 := by
  show (base64urlEncode (crc32Bytes bs ++ md5Bytes bs)).length = 27
  rw [base64urlEncode_length, List.length_append, crc32Bytes_length,
    md5Bytes_length]

/-! ## Decomposition of the blob map over directory-entry lists -/

theorem findC_single (nm : String) (n : FNode) (k : String) :
    findC [(nm, n)] k = if k = nm then some n else none := by
  rw [findC]
  by_cases h : k = nm
  · rw [if_pos h, if_pos h]
  · rw [if_neg h, if_neg h]
    rfl

theorem findC_append_left (acc X : List (String × FNode)) (k : String)
    (n₀ : FNode) (hf : findC acc k = some n₀) : findC (acc ++ X) k = some n₀ := by
  rw [findC_append, hf]

theorem findC_append_right (acc X : List (String × FNode)) (k : String)
    (hf : findC acc k = none) : findC (acc ++ X) k = findC X k := by
  rw [findC_append, hf]

theorem fileAtE_append_left (acc X : List (String × FNode)) (k : String)
    (p : List String) (n₀ : FNode) (hf : findC acc k = some n₀) :
    fileAtE (acc ++ X) (k :: p) = fileAtE acc (k :: p) := by
  rw [fileAtE_append, hf]

theorem fileAtE_append_right (acc X : List (String × FNode)) (k : String)
    (p : List String) (hf : findC acc k = none) :
    fileAtE (acc ++ X) (k :: p) = fileAtE X (k :: p) := by
  rw [fileAtE_append, hf]

theorem fileAtE_mid (acc X rest : List (String × FNode)) (nm : String)
    (p : List String) (n₀ : FNode) (hf : findC acc nm = none)
    (hx : findC X nm = some n₀) :
    fileAtE ((acc ++ X) ++ rest) (nm :: p) = fileAtE X (nm :: p) := by
  rw [fileAtE_append_left (acc ++ X) rest nm p n₀ (by rw [findC_append, hf]; exact hx),
    fileAtE_append_right acc X nm p hf]

theorem fileAtE_skip (acc rest : List (String × FNode)) (nm : String)
    (node : FNode) (k : String) (p : List String) (hf : findC acc k = none)
    (hk : k ≠ nm) :
    fileAtE ((acc ++ [(nm, node)]) ++ rest) (k :: p) = fileAtE rest (k :: p) := by
  rw [fileAtE_append_right]
  rw [findC_append, hf, findC_single, if_neg hk]

theorem fileAtE_single_ne (nm : String) (node : FNode) (k : String)
    (p : List String) (hk : k ≠ nm) :
    fileAtE [(nm, node)] (k :: p) = none := by
  cases p with
  | nil => rw [fileAtE_single, findC_single, if_neg hk]
  | cons w ws => rw [fileAtE_cons_cons, findC_single, if_neg hk]

theorem fileAtE_single_dir_cons (nm : String) (d : List (String × FNode))
    (w : String) (ws : List String) :
    fileAtE [(nm, FNode.dir d)] (nm :: w :: ws) = fileAtE d (w :: ws) := by
  rw [fileAtE_cons_cons, findC_single, if_pos rfl]

theorem fileAtE_single_file_eq (nm : String) (m₀ : Int) (c₀ : List Nat)
    (lk₀ : Bool) (q : List String) (m : Int) (c : List Nat) (lk : Bool)
    (h : fileAtE [(nm, FNode.file m₀ c₀ lk₀)] q = some (m, c, lk)) :
    q = [nm] ∧ m = m₀ ∧ c = c₀ ∧ lk = lk₀ := by
  match q with
  | [] => exact Option.noConfusion h
  | k :: p =>
    by_cases hk : k = nm
    · subst hk
      cases p with
      | nil =>
        rw [fileAtE_single, findC_single, if_pos rfl] at h
        replace h : some (m₀, c₀, lk₀) = some (m, c, lk) := h
        injection h with h
        rw [Prod.mk.injEq, Prod.mk.injEq] at h
        obtain ⟨h1, h2, h3⟩ := h
        exact ⟨rfl, h1.symm, h2.symm, h3.symm⟩
      | cons w ws =>
        rw [fileAtE_cons_cons, findC_single, if_pos rfl] at h
        exact Option.noConfusion h
    · rw [fileAtE_single_ne nm _ k p hk] at h
      exact Option.noConfusion h

theorem fileAtE_single_dir_some (nm : String) (d : List (String × FNode))
    (q : List String) (m : Int) (c : List Nat) (lk : Bool)
    (h : fileAtE [(nm, FNode.dir d)] q = some (m, c, lk)) :
    ∃ w ws, q = nm :: w :: ws ∧ fileAtE d (w :: ws) = some (m, c, lk) := by
  match q with
  | [] => exact Option.noConfusion h
  | k :: p =>
    by_cases hk : k = nm
    · subst hk
      cases p with
      | nil =>
        rw [fileAtE_single, findC_single, if_pos rfl] at h
        exact Option.noConfusion h
      | cons w ws =>
        rw [fileAtE_single_dir_cons] at h
        exact ⟨w, ws, rfl, h⟩
    · rw [fileAtE_single_ne nm _ k p hk] at h
      exact Option.noConfusion h

/-! ## The walk of `Store.Clean` -/

theorem walk_err_none (valid : Int) :
    ∀ acc l, noBadL l = true → (walkEntries valid acc l).2.2 = none := by
  intro acc l
  induction acc, l using walkEntries.induct valid with
  | case1 acc =>
    intro _
    simp [walkEntries]
  | case2 acc nm rest e =>
    intro hnb
    simp [noBadL] at hnb
  | case3 acc nm rest m c lk hcond ih =>
    intro hnb
    simp only [noBadL] at hnb
    simp only [walkEntries]
    rw [if_pos hcond]
    exact ih hnb
  | case4 acc nm rest m c lk hcond hempty =>
    intro _
    simp only [walkEntries]
    rw [if_neg hcond, if_pos hempty]
  | case5 acc nm rest m c lk hcond hempty ih =>
    intro hnb
    simp only [noBadL] at hnb
    simp only [walkEntries]
    rw [if_neg hcond, if_neg hempty]
    exact ih hnb
  | case6 acc nm rest dcs dcs' fst hinner ih1 ih2 =>
    intro hnb
    simp only [noBadL, Bool.and_eq_true] at hnb
    simp only [walkEntries, hinner]
    exact ih2 hnb.2
  | case7 acc nm rest dcs dcs' fst e hinner ih1 =>
    intro hnb
    simp only [noBadL, Bool.and_eq_true] at hnb
    have := ih1 hnb.1
    rw [hinner] at this
    exact Option.noConfusion this
  | case8 acc nm rest dcs req hinner hempty ih1 =>
    intro _
    simp only [walkEntries, hinner]
    rw [if_pos hempty]
  | case9 acc nm rest dcs req hinner hempty ih1 ih2 =>
    intro hnb
    simp only [noBadL, Bool.and_eq_true] at hnb
    simp only [walkEntries, hinner]
    rw [if_neg hempty]
    exact ih2 hnb.2
  | case10 acc nm rest dcs fst e hinner ih1 =>
    intro hnb
    simp only [noBadL, Bool.and_eq_true] at hnb
    have := ih1 hnb.1
    rw [hinner] at this
    exact Option.noConfusion this

theorem stale_snoc (valid : Int) (a : List (String × FNode)) (nm : String)
    (node : FNode)
    (H : ∀ q m c lk, fileAtE a q = some (m, c, lk) → valid < m ∨ lk = true)
    (Hn : ∀ q m c lk, fileAtE [(nm, node)] q = some (m, c, lk) →
      valid < m ∨ lk = true) :
    ∀ q m c lk, fileAtE (a ++ [(nm, node)]) q = some (m, c, lk) →
      valid < m ∨ lk = true := by
  intro q m c lk hq
  match q with
  | [] => exact Option.noConfusion hq
  | k :: p =>
    rcases hf : findC a k with _ | n₀
    · rw [fileAtE_append_right a _ k p hf] at hq
      exact Hn _ _ _ _ hq
    · rw [fileAtE_append_left a _ k p n₀ hf] at hq
      exact H _ _ _ _ hq

theorem stale_single_file (valid : Int) (nm : String) (m₀ : Int) (c₀ : List Nat)
    (lk₀ : Bool) (hf : valid < m₀ ∨ lk₀ = true) :
    ∀ q m c lk, fileAtE [(nm, FNode.file m₀ c₀ lk₀)] q = some (m, c, lk) →
      valid < m ∨ lk = true := by
  intro q m c lk hq
  obtain ⟨_, h1, _, h3⟩ := fileAtE_single_file_eq nm m₀ c₀ lk₀ q m c lk hq
  subst h1
  subst h3
  exact hf

theorem stale_single_dir (valid : Int) (nm : String) (d : List (String × FNode))
    (H : ∀ q m c lk, fileAtE d q = some (m, c, lk) → valid < m ∨ lk = true) :
    ∀ q m c lk, fileAtE [(nm, FNode.dir d)] q = some (m, c, lk) →
      valid < m ∨ lk = true := by
  intro q m c lk hq
  obtain ⟨w, ws, _, h2⟩ := fileAtE_single_dir_some nm d q m c lk hq
  exact H _ _ _ _ h2

theorem stale_nil (valid : Int) :
    ∀ q m c lk, fileAtE ([] : List (String × FNode)) q = some (m, c, lk) →
      valid < m ∨ lk = true := by
  intro q m c lk hq
  rw [fileAtE_nil] at hq
  exact Option.noConfusion hq

theorem walk_staleFree (valid : Int) :
    ∀ acc l, noBadL l = true →
      (∀ q m c lk, fileAtE acc q = some (m, c, lk) → valid < m ∨ lk = true) →
      ∀ cs' req, walkEntries valid acc l = (some cs', req, none) →
        ∀ q m c lk, fileAtE cs' q = some (m, c, lk) → valid < m ∨ lk = true := by
  intro acc l
  induction acc, l using walkEntries.induct valid with
  | case1 acc =>
    intro _ Hacc cs' req hw
    simp only [walkEntries] at hw
    rw [Prod.mk.injEq, Prod.mk.injEq] at hw
    obtain ⟨h1, _, _⟩ := hw
    injection h1 with h1
    subst h1
    exact Hacc
  | case2 acc nm rest e =>
    intro hnb
    simp [noBadL] at hnb
  | case3 acc nm rest m c lk hcond ih =>
    intro hnb Hacc cs' req hw
    simp only [noBadL] at hnb
    simp only [walkEntries] at hw
    rw [if_pos hcond] at hw
    exact ih hnb
      (stale_snoc valid acc nm _ Hacc (stale_single_file valid nm m c lk hcond))
      cs' req hw
  | case4 acc nm rest m c lk hcond hempty =>
    intro _ _ cs' req hw
    simp only [walkEntries] at hw
    rw [if_neg hcond, if_pos hempty] at hw
    rw [Prod.mk.injEq] at hw
    exact Option.noConfusion hw.1
  | case5 acc nm rest m c lk hcond hempty ih =>
    intro hnb Hacc cs' req hw
    simp only [noBadL] at hnb
    simp only [walkEntries] at hw
    rw [if_neg hcond, if_neg hempty] at hw
    exact ih hnb Hacc cs' req hw
  | case6 acc nm rest dcs dcs' fst hinner ih1 ih2 =>
    intro hnb Hacc cs' req hw
    simp only [noBadL, Bool.and_eq_true] at hnb
    simp only [walkEntries, hinner] at hw
    have Hd : ∀ q m c lk, fileAtE dcs' q = some (m, c, lk) →
        valid < m ∨ lk = true :=
      ih1 hnb.1 (stale_nil valid) dcs' fst hinner
    exact ih2 hnb.2
      (stale_snoc valid acc nm _ Hacc (stale_single_dir valid nm dcs' Hd))
      cs' req hw
  | case7 acc nm rest dcs dcs' fst e hinner ih1 =>
    intro hnb Hacc cs' req hw
    simp only [walkEntries, hinner] at hw
    rw [Prod.mk.injEq, Prod.mk.injEq] at hw
    exact Option.noConfusion hw.2.2
  | case8 acc nm rest dcs req₀ hinner hempty ih1 =>
    intro _ _ cs' req hw
    simp only [walkEntries, hinner] at hw
    rw [if_pos hempty] at hw
    rw [Prod.mk.injEq] at hw
    exact Option.noConfusion hw.1
  | case9 acc nm rest dcs req₀ hinner hempty ih1 ih2 =>
    intro hnb Hacc cs' req hw
    simp only [noBadL, Bool.and_eq_true] at hnb
    simp only [walkEntries, hinner] at hw
    rw [if_neg hempty] at hw
    exact ih2 hnb.2 Hacc cs' req hw
  | case10 acc nm rest dcs fst e hinner ih1 =>
    intro hnb Hacc cs' req hw
    simp only [walkEntries, hinner] at hw
    rw [Prod.mk.injEq, Prod.mk.injEq] at hw
    exact Option.noConfusion hw.2.2

theorem walk_keep (valid : Int) :
    ∀ acc l q m c lk, (valid < m ∨ lk = true) →
      fileAtE (acc ++ l) q = some (m, c, lk) →
      ∃ cs', (walkEntries valid acc l).1 = some cs' ∧
        fileAtE cs' q = some (m, c, lk) := by
  intro acc l
  induction acc, l using walkEntries.induct valid with
  | case1 acc =>
    intro q m c lk _ hq
    rw [List.append_nil] at hq
    refine ⟨acc, ?_, hq⟩
    simp [walkEntries]
  | case2 acc nm rest e =>
    intro q m c lk _ hq
    refine ⟨acc ++ (nm, FNode.bad e) :: rest, ?_, hq⟩
    simp [walkEntries]
  | case3 acc nm rest m₀ c₀ lk₀ hcond ih =>
    intro q m c lk hfresh hq
    have hq' : fileAtE ((acc ++ [(nm, FNode.file m₀ c₀ lk₀)]) ++ rest) q =
        some (m, c, lk) := by
      rw [List.append_assoc]
      exact hq
    obtain ⟨cs', h1, h2⟩ := ih q m c lk hfresh hq'
    refine ⟨cs', ?_, h2⟩
    simp only [walkEntries]
    rw [if_pos hcond]
    exact h1
  | case4 acc nm rest m₀ c₀ lk₀ hcond hempty =>
    intro q m c lk hfresh hq
    rw [Bool.and_eq_true, List.isEmpty_iff, List.isEmpty_iff] at hempty
    obtain ⟨ha, hr⟩ := hempty
    subst ha
    subst hr
    exfalso
    replace hq : fileAtE [(nm, FNode.file m₀ c₀ lk₀)] q = some (m, c, lk) := hq
    obtain ⟨_, h1, _, h3⟩ := fileAtE_single_file_eq nm m₀ c₀ lk₀ q m c lk hq
    subst h1
    subst h3
    exact hcond hfresh
  | case5 acc nm rest m₀ c₀ lk₀ hcond hempty ih =>
    intro q m c lk hfresh hq
    match q with
    | [] => exact Option.noConfusion hq
    | k :: p =>
      rcases hf : findC acc k with _ | n₀
      · rw [fileAtE_append_right acc _ k p hf] at hq
        by_cases hk : k = nm
        · subst hk
          exfalso
          have hq1 : fileAtE [(k, FNode.file m₀ c₀ lk₀)] (k :: p) =
              some (m, c, lk) := by
            rw [← fileAtE_append_left [(k, FNode.file m₀ c₀ lk₀)] rest k p
              (FNode.file m₀ c₀ lk₀) (by rw [findC_single, if_pos rfl])]
            exact hq
          obtain ⟨_, h1, _, h3⟩ :=
            fileAtE_single_file_eq k m₀ c₀ lk₀ (k :: p) m c lk hq1
          subst h1
          subst h3
          exact hcond hfresh
        · have hq'' : fileAtE (acc ++ rest) (k :: p) = some (m, c, lk) := by
            rw [fileAtE_append_right acc rest k p hf]
            rw [← fileAtE_append_right [(nm, FNode.file m₀ c₀ lk₀)] rest k p
              (by rw [findC_single, if_neg hk])]
            exact hq
          obtain ⟨cs', h1, h2⟩ := ih (k :: p) m c lk hfresh hq''
          refine ⟨cs', ?_, h2⟩
          simp only [walkEntries]
          rw [if_neg hcond, if_neg hempty]
          exact h1
      · rw [fileAtE_append_left acc _ k p n₀ hf] at hq
        have hq'' : fileAtE (acc ++ rest) (k :: p) = some (m, c, lk) := by
          rw [fileAtE_append_left acc rest k p n₀ hf]
          exact hq
        obtain ⟨cs', h1, h2⟩ := ih (k :: p) m c lk hfresh hq''
        refine ⟨cs', ?_, h2⟩
        simp only [walkEntries]
        rw [if_neg hcond, if_neg hempty]
        exact h1
  | case6 acc nm rest dcs dcs' fst hinner ih1 ih2 =>
    intro q m c lk hfresh hq
    match q with
    | [] => exact Option.noConfusion hq
    | k :: p =>
      rcases hf : findC acc k with _ | n₀
      · by_cases hk : k = nm
        · subst hk
          rw [fileAtE_append_right acc _ k p hf] at hq
          have hq1 : fileAtE [(k, FNode.dir dcs)] (k :: p) = some (m, c, lk) := by
            rw [← fileAtE_append_left [(k, FNode.dir dcs)] rest k p
              (FNode.dir dcs) (by rw [findC_single, if_pos rfl])]
            exact hq
          obtain ⟨w, ws, hqe, hd⟩ :=
            fileAtE_single_dir_some k dcs (k :: p) m c lk hq1
          injection hqe with _ hqe
          subst hqe
          obtain ⟨cs'', hi1, hi2⟩ := ih1 (w :: ws) m c lk hfresh
            (by rw [List.nil_append]; exact hd)
          rw [hinner] at hi1
          replace hi1 : some dcs' = some cs'' := hi1
          injection hi1 with hi1
          subst hi1
          have hq' : fileAtE ((acc ++ [(k, FNode.dir dcs')]) ++ rest)
              (k :: w :: ws) = some (m, c, lk) := by
            rw [fileAtE_mid acc [(k, FNode.dir dcs')] rest k (w :: ws)
              (FNode.dir dcs') hf (by rw [findC_single, if_pos rfl])]
            rw [fileAtE_single_dir_cons]
            exact hi2
          obtain ⟨cs', h1, h2⟩ := ih2 (k :: w :: ws) m c lk hfresh hq'
          refine ⟨cs', ?_, h2⟩
          simp only [walkEntries, hinner]
          exact h1
        · have hq' : fileAtE ((acc ++ [(nm, FNode.dir dcs')]) ++ rest)
              (k :: p) = some (m, c, lk) := by
            rw [fileAtE_skip acc rest nm _ k p hf hk]
            rw [← fileAtE_append_right [(nm, FNode.dir dcs)] rest k p
              (by rw [findC_single, if_neg hk])]
            rw [← fileAtE_append_right acc _ k p hf]
            exact hq
          obtain ⟨cs', h1, h2⟩ := ih2 (k :: p) m c lk hfresh hq'
          refine ⟨cs', ?_, h2⟩
          simp only [walkEntries, hinner]
          exact h1
      · rw [fileAtE_append_left acc _ k p n₀ hf] at hq
        have hq' : fileAtE ((acc ++ [(nm, FNode.dir dcs')]) ++ rest)
            (k :: p) = some (m, c, lk) := by
          rw [fileAtE_append_left (acc ++ [(nm, FNode.dir dcs')]) rest k p n₀
            (findC_append_left acc _ k n₀ hf)]
          rw [fileAtE_append_left acc [(nm, FNode.dir dcs')] k p n₀ hf]
          exact hq
        obtain ⟨cs', h1, h2⟩ := ih2 (k :: p) m c lk hfresh hq'
        refine ⟨cs', ?_, h2⟩
        simp only [walkEntries, hinner]
        exact h1
  | case7 acc nm rest dcs dcs' fst e hinner ih1 =>
    intro q m c lk hfresh hq
    refine ⟨acc ++ (nm, FNode.dir dcs') :: rest, ?_, ?_⟩
    · simp only [walkEntries, hinner]
    · match q with
      | [] => exact Option.noConfusion hq
      | k :: p =>
        rcases hf : findC acc k with _ | n₀
        · by_cases hk : k = nm
          · subst hk
            rw [fileAtE_append_right acc _ k p hf] at hq
            have hq1 : fileAtE [(k, FNode.dir dcs)] (k :: p) =
                some (m, c, lk) := by
              rw [← fileAtE_append_left [(k, FNode.dir dcs)] rest k p
                (FNode.dir dcs) (by rw [findC_single, if_pos rfl])]
              exact hq
            obtain ⟨w, ws, hqe, hd⟩ :=
              fileAtE_single_dir_some k dcs (k :: p) m c lk hq1
            injection hqe with _ hqe
            subst hqe
            obtain ⟨cs'', hi1, hi2⟩ := ih1 (w :: ws) m c lk hfresh
              (by rw [List.nil_append]; exact hd)
            rw [hinner] at hi1
            replace hi1 : some dcs' = some cs'' := hi1
            injection hi1 with hi1
            subst hi1
            have hgoal : fileAtE ((acc ++ [(k, FNode.dir dcs')]) ++ rest)
                (k :: w :: ws) = some (m, c, lk) := by
              rw [fileAtE_mid acc [(k, FNode.dir dcs')] rest k (w :: ws)
                (FNode.dir dcs') hf (by rw [findC_single, if_pos rfl])]
              rw [fileAtE_single_dir_cons]
              exact hi2
            rw [List.append_assoc] at hgoal
            exact hgoal
          · have hgoal : fileAtE ((acc ++ [(nm, FNode.dir dcs')]) ++ rest)
                (k :: p) = some (m, c, lk) := by
              rw [fileAtE_skip acc rest nm _ k p hf hk]
              rw [fileAtE_append_right acc _ k p hf] at hq
              rw [← fileAtE_append_right [(nm, FNode.dir dcs)] rest k p
                (by rw [findC_single, if_neg hk])]
              exact hq
            rw [List.append_assoc] at hgoal
            exact hgoal
        · have hgoal : fileAtE ((acc ++ [(nm, FNode.dir dcs')]) ++ rest)
              (k :: p) = some (m, c, lk) := by
            rw [fileAtE_append_left (acc ++ [(nm, FNode.dir dcs')]) rest k p n₀
              (findC_append_left acc _ k n₀ hf)]
            rw [fileAtE_append_left acc [(nm, FNode.dir dcs')] k p n₀ hf]
            rw [fileAtE_append_left acc _ k p n₀ hf] at hq
            exact hq
          rw [List.append_assoc] at hgoal
          exact hgoal
  | case8 acc nm rest dcs req₀ hinner hempty ih1 =>
    intro q m c lk hfresh hq
    rw [Bool.and_eq_true, Bool.and_eq_true, List.isEmpty_iff,
      List.isEmpty_iff] at hempty
    obtain ⟨⟨_, ha⟩, hr⟩ := hempty
    subst ha
    subst hr
    exfalso
    replace hq : fileAtE [(nm, FNode.dir dcs)] q = some (m, c, lk) := hq
    obtain ⟨w, ws, _, hd⟩ := fileAtE_single_dir_some nm dcs q m c lk hq
    obtain ⟨cs'', hi1, _⟩ := ih1 (w :: ws) m c lk hfresh
      (by rw [List.nil_append]; exact hd)
    rw [hinner] at hi1
    replace hi1 : (none : Option (List (String × FNode))) = some cs'' := hi1
    exact Option.noConfusion hi1
  | case9 acc nm rest dcs req₀ hinner hempty ih1 ih2 =>
    intro q m c lk hfresh hq
    match q with
    | [] => exact Option.noConfusion hq
    | k :: p =>
      rcases hf : findC acc k with _ | n₀
      · by_cases hk : k = nm
        · subst hk
          exfalso
          rw [fileAtE_append_right acc _ k p hf] at hq
          have hq1 : fileAtE [(k, FNode.dir dcs)] (k :: p) = some (m, c, lk) := by
            rw [← fileAtE_append_left [(k, FNode.dir dcs)] rest k p
              (FNode.dir dcs) (by rw [findC_single, if_pos rfl])]
            exact hq
          obtain ⟨w, ws, _, hd⟩ :=
            fileAtE_single_dir_some k dcs (k :: p) m c lk hq1
          obtain ⟨cs'', hi1, _⟩ := ih1 (w :: ws) m c lk hfresh
            (by rw [List.nil_append]; exact hd)
          rw [hinner] at hi1
          replace hi1 : (none : Option (List (String × FNode))) = some cs'' := hi1
          exact Option.noConfusion hi1
        · have hq'' : fileAtE (acc ++ rest) (k :: p) = some (m, c, lk) := by
            rw [fileAtE_append_right acc rest k p hf]
            rw [fileAtE_append_right acc _ k p hf] at hq
            rw [← fileAtE_append_right [(nm, FNode.dir dcs)] rest k p
              (by rw [findC_single, if_neg hk])]
            exact hq
          obtain ⟨cs', h1, h2⟩ := ih2 (k :: p) m c lk hfresh hq''
          refine ⟨cs', ?_, h2⟩
          simp only [walkEntries, hinner]
          rw [if_neg hempty]
          exact h1
      · have hq'' : fileAtE (acc ++ rest) (k :: p) = some (m, c, lk) := by
          rw [fileAtE_append_left acc rest k p n₀ hf]
          rw [fileAtE_append_left acc _ k p n₀ hf] at hq
          exact hq
        obtain ⟨cs', h1, h2⟩ := ih2 (k :: p) m c lk hfresh hq''
        refine ⟨cs', ?_, h2⟩
        simp only [walkEntries, hinner]
        rw [if_neg hempty]
        exact h1
  | case10 acc nm rest dcs fst e hinner ih1 =>
    intro q m c lk hfresh hq
    refine ⟨acc ++ rest, ?_, ?_⟩
    · simp only [walkEntries, hinner]
    · match q with
      | [] => exact Option.noConfusion hq
      | k :: p =>
        rcases hf : findC acc k with _ | n₀
        · by_cases hk : k = nm
          · subst hk
            exfalso
            rw [fileAtE_append_right acc _ k p hf] at hq
            have hq1 : fileAtE [(k, FNode.dir dcs)] (k :: p) =
                some (m, c, lk) := by
              rw [← fileAtE_append_left [(k, FNode.dir dcs)] rest k p
                (FNode.dir dcs) (by rw [findC_single, if_pos rfl])]
              exact hq
            obtain ⟨w, ws, _, hd⟩ :=
              fileAtE_single_dir_some k dcs (k :: p) m c lk hq1
            obtain ⟨cs'', hi1, _⟩ := ih1 (w :: ws) m c lk hfresh
              (by rw [List.nil_append]; exact hd)
            rw [hinner] at hi1
            replace hi1 : (none : Option (List (String × FNode))) =
              some cs'' := hi1
            exact Option.noConfusion hi1
          · rw [fileAtE_append_right acc _ k p hf] at hq
            rw [fileAtE_append_right acc rest k p hf]
            rw [← fileAtE_append_right [(nm, FNode.dir dcs)] rest k p
              (by rw [findC_single, if_neg hk])]
            exact hq
        · rw [fileAtE_append_left acc _ k p n₀ hf] at hq
          rw [fileAtE_append_left acc rest k p n₀ hf]
          exact hq

theorem clean_keep (cs : List (String × FNode)) (D now : Int) (hD : 0 < D)
    (q : List String) (m : Int) (c : List Nat) (lk : Bool)
    (hfresh : now - D < m ∨ lk = true)
    (hq : fileAt (some cs) q = some (m, c, lk)) :
    fileAt (Store.clean (some cs) D now).2 q = some (m, c, lk) := by
  have hq0 : q ≠ [] := by
    intro he
    rw [he] at hq
    simp [fileAt, FS.find?] at hq
  rw [fileAt_eq, if_neg hq0] at hq
  replace hq : fileAtE cs q = some (m, c, lk) := hq
  obtain ⟨cs', h1, h2⟩ := walk_keep (now - D) [] cs q m c lk hfresh
    (by rw [List.nil_append]; exact hq)
  rcases hw : walkEntries (now - D) [] cs with ⟨res, req, err⟩
  rw [hw] at h1
  replace h1 : res = some cs' := h1
  subst h1
  rcases err with _ | e
  · simp only [Store.clean, hw, if_neg (show ¬ D ≤ 0 by omega)]
    show fileAt (some cs') q = some (m, c, lk)
    rw [fileAt_eq, if_neg hq0]
    exact h2
  · simp only [Store.clean, hw, if_neg (show ¬ D ≤ 0 by omega)]
    show fileAt (some cs') q = some (m, c, lk)
    rw [fileAt_eq, if_neg hq0]
    exact h2

theorem clean_staleFree (cs : List (String × FNode)) (D now : Int) (hD : 0 < D)
    (hnb : noBadL cs = true) :
    (Store.clean (some cs) D now).1 = .ok () ∧
    ∀ q m c lk, fileAt (Store.clean (some cs) D now).2 q = some (m, c, lk) →
      now - D < m ∨ lk = true := by
  have herr := walk_err_none (now - D) [] cs hnb
  rcases hw : walkEntries (now - D) [] cs with ⟨res, req, err⟩
  rw [hw] at herr
  replace herr : err = none := herr
  subst herr
  rcases res with _ | cs'
  · constructor
    · simp only [Store.clean, hw, if_neg (show ¬ D ≤ 0 by omega)]
    · intro q m c lk hq
      simp only [Store.clean, hw, if_neg (show ¬ D ≤ 0 by omega)] at hq
      replace hq : (none : Option (Int × List Nat × Bool)) = some (m, c, lk) := hq
      exact Option.noConfusion hq
  · have hsf := walk_staleFree (now - D) [] cs hnb (stale_nil (now - D)) cs' req hw
    constructor
    · simp only [Store.clean, hw, if_neg (show ¬ D ≤ 0 by omega)]
    · intro q m c lk hq
      simp only [Store.clean, hw, if_neg (show ¬ D ≤ 0 by omega)] at hq
      have hq0 : q ≠ [] := by
        intro he
        rw [he] at hq
        simp [fileAt, FS.find?] at hq
      rw [fileAt_eq, if_neg hq0] at hq
      exact hsf q m c lk hq

theorem clean_none_noop (D now : Int) (hD : 0 < D) :
    Store.clean none D now = (.ok (), none) := by
  rw [Store.clean, if_neg (show ¬ D ≤ 0 by omega)]

/-! ## Claim C9: short-name rejection -/

/-- **C9.**  Short-name rejection: for every prefix and every name shorter
than the fixed 27-character content-name length, both `Open` and `Remove`
return the not-found error and hand back the store unchanged, without
touching the filesystem. -/
theorem C9_short_name_rejection (fs : FS) (pre name : String) (now : Int)
    (h : name.length < 27) :
    Store.open fs pre name now = (.error .notExist, fs) ∧
    Store.remove fs pre name = (.error .notExist, fs) := by
  constructor
  · rw [Store.open, if_pos h]
  · rw [Store.remove, if_pos h]

theorem C9_witness :
    ("abc" : String).length < 27 ∧
    Store.open (some [("z", FNode.file 3 [9] false)]) "p" "abc" 0 =
      (.error .notExist, some [("z", FNode.file 3 [9] false)]) ∧
    Store.remove (some [("z", FNode.file 3 [9] false)]) "p" "abc" =
      (.error .notExist, some [("z", FNode.file 3 [9] false)]) :=
  ⟨by decide,
    C9_short_name_rejection (some [("z", FNode.file 3 [9] false)]) "p" "abc" 0
      (by decide)⟩

/-! ## Claim C10: Open refreshes the modification time -/

/-- **C10.**  Every successful `Store.Open` sets the opened blob's
modification time (not only its access time) to the current time — `Open`
calls `os.Chtimes(path, now, now)` — so the blob survives any later
`Clean(D)` run at a time `now₂` with `now₂ - D < now`: it is ineligible for
removal for a full lifetime measured from the open. -/
theorem C10_open_refreshes_mtime (fs : FS) (pre name : String)
    (now D now₂ : Int) (c : List Nat) (fs' : FS)
    (h : Store.open fs pre name now = (.ok c, fs'))
    (hD : 0 < D) (hlt : now₂ - D < now) :
    ∃ lk, fileAt fs' (blobPath pre name) = some (now, c, lk) ∧
      fileAt (Store.clean fs' D now₂).2 (blobPath pre name) =
        some (now, c, lk) := by
  rw [Store.open] at h
  by_cases hlen : name.length < 27
  · rw [if_pos hlen] at h
    rw [Prod.mk.injEq] at h
    exact Except.noConfusion h.1
  · rw [if_neg hlen] at h
    rcases hfind : FS.find? fs (blobPath pre name) with _ | n
    · simp only [hfind] at h
      rw [Prod.mk.injEq] at h
      exact Except.noConfusion h.1
    · simp only [hfind] at h
      cases n with
      | bad e =>
        rw [Prod.mk.injEq] at h
        exact Except.noConfusion h.1
      | dir d =>
        rw [Prod.mk.injEq] at h
        exact Except.noConfusion h.1
      | file m₀ c₀ lk₀ =>
        have hfa : fileAt fs (blobPath pre name) = some (m₀, c₀, lk₀) :=
          fileAt_of_find_file fs _ m₀ c₀ lk₀ hfind
        obtain ⟨fs₁, hok⟩ := osChtimes_ok_of_file fs _ now m₀ c₀ lk₀ hfa
        simp only [hok] at h
        rw [Prod.mk.injEq] at h
        obtain ⟨h1, h2⟩ := h
        injection h1 with h1
        subst h1
        subst h2
        have hct := osChtimes_fileAt fs _ now fs₁ hok
        have hbp : fileAt fs₁ (blobPath pre name) = some (now, c₀, lk₀) := by
          rw [hct, if_pos rfl, hfa]
        refine ⟨lk₀, hbp, ?_⟩
        rcases fs₁ with _ | cs'
        · exact Option.noConfusion hbp
        · exact clean_keep cs' D now₂ hD _ now c₀ lk₀ (Or.inl hlt) hbp

/-! ## Claim C7: deduplication frame -/

/-- **C7.**  Deduplication frame: when a file already exists at the resolved
content-addressed path (so the `os.Chtimes` touch succeeds) and the stream
delivers its bytes without error, `Create` returns the computed `FileInfo`
immediately, rewrites no data — the existing blob keeps its bytes, only its
modification time is set to now — the temporary file is discarded, and no
other path of the store changes. -/
theorem C7_dedup_touch (fs : FS) (pre : String) (r : RStream) (now : Int)
    (m₀ : Int) (c₀ : List Nat) (lk₀ : Bool)
    (hr : r.fail = none)
    (hfile : FS.find? fs (blobPath pre (encodeName r.bytes)) =
      some (.file m₀ c₀ lk₀)) :
    (Store.create fs pre r now).1 = .ok (mkFileInfo r.bytes) ∧
    fileAt (Store.create fs pre r now).2
      (blobPath pre (encodeName r.bytes)) = some (now, c₀, lk₀) ∧
    ∀ q, q ≠ blobPath pre (encodeName r.bytes) →
      fileAt (Store.create fs pre r now).2 q = fileAt fs q := by
  obtain ⟨hmk, hdir⟩ := prefix_dir_of_deep fs pre
    (shardSegs (encodeName r.bytes)) _ (by simp [shardSegs]) hfile
  obtain ⟨hpre_i, hpre_ii⟩ := mkdirAll_prefix fs pre fs hmk
  have hfresh_find : FS.find? fs
      (prefixSegs pre ++ [tmpFresh (childrenAt fs (prefixSegs pre))]) = none :=
    hpre_ii _ (findC_tmpFresh _)
  have hfresh : fileAt fs
      (prefixSegs pre ++ [tmpFresh (childrenAt fs (prefixSegs pre))]) = none :=
    fileAt_none_of_find _ _ hfresh_find
  have htp_bp : prefixSegs pre ++ [tmpFresh (childrenAt fs (prefixSegs pre))] ≠
      blobPath pre (encodeName r.bytes) := tp_ne_blobPath pre _ _
  obtain ⟨fs₂, hpf1⟩ := putFile_fresh_ok fs pre
    (tmpFresh (childrenAt fs (prefixSegs pre))) [] now hdir (findC_tmpFresh _)
  obtain ⟨hat2, hfr2⟩ := putFile_fileAt fs _ [] now fs₂ hpf1
  obtain ⟨fs₃, hpf2⟩ := putFile_ok_of_file fs₂ _ now [] false r.bytes now hat2
  obtain ⟨hat3, hfr3⟩ := putFile_fileAt fs₂ _ r.bytes now fs₃ hpf2
  have hf3bp : fileAt fs₃ (blobPath pre (encodeName r.bytes)) =
      some (m₀, c₀, lk₀) := by
    rw [hfr3 _ (fun he => htp_bp he.symm), hfr2 _ (fun he => htp_bp he.symm)]
    exact fileAt_of_find_file fs _ m₀ c₀ lk₀ hfile
  obtain ⟨fs₄, hct⟩ := osChtimes_ok_of_file fs₃ _ now m₀ c₀ lk₀ hf3bp
  have hct4 := osChtimes_fileAt fs₃ _ now fs₄ hct
  rw [show blobPath pre (encodeName r.bytes) =
    prefixSegs pre ++ shardSegs (mkFileInfo r.bytes).Name from rfl] at hct
  have hred : Store.create fs pre r now =
      (.ok (mkFileInfo r.bytes),
        osRemoveQuiet fs₄
          (prefixSegs pre ++ [tmpFresh (childrenAt fs (prefixSegs pre))])) := by
    simp only [Store.create, hmk, hpf1, hr, Option.isSome_none,
      Bool.false_eq_true, false_and, if_false, hpf2, hct]
  rw [hred]
  have h4bp : fileAt fs₄ (blobPath pre (encodeName r.bytes)) =
      some (now, c₀, lk₀) := by
    rw [hct4, if_pos rfl, hf3bp]
  have h4tp : fileAt fs₄
      (prefixSegs pre ++ [tmpFresh (childrenAt fs (prefixSegs pre))]) =
      some (now, r.bytes, false) := by
    rw [hct4, if_neg htp_bp]
    exact hat3
  have hquiet := osRemoveQuiet_file fs₄ _ now r.bytes h4tp
  refine ⟨rfl, ?_, ?_⟩
  · show fileAt (osRemoveQuiet fs₄ _) _ = some (now, c₀, lk₀)
    rw [hquiet, if_neg (fun he => htp_bp he.symm)]
    exact h4bp
  · intro q hq
    show fileAt (osRemoveQuiet fs₄ _) q = fileAt fs q
    rw [hquiet q]
    by_cases hqt : q =
        prefixSegs pre ++ [tmpFresh (childrenAt fs (prefixSegs pre))]
    · rw [if_pos hqt, hqt, hfresh]
    · rw [if_neg hqt, hct4, if_neg hq, hfr3 q hqt, hfr2 q hqt]

/-! ## Claim C4: Create error atomicity -/

/-- **C4.**  Create atomicity: whenever `Create` returns an error — from the
prefix directory creation, the temporary-file creation, the peek, the
copy-and-hash, the shard-directory creation, or the rename — nothing is
committed: every file of the store is exactly as before the call, no file
appears at the content-addressed path, and the temporary file is gone from
the exit state (the deferred removal); the rename is the sole commit point. -/
theorem C4_create_error_atomic (fs : FS) (pre : String) (r : RStream)
    (now : Int) (e : GErr) (fs' : FS)
    (h : Store.create fs pre r now = (.error e, fs')) :
    ∀ q, fileAt fs' q = fileAt fs q := by
  rcases hmk : osMkdirAll fs (prefixSegs pre) with e₀ | fs₁
  · simp only [Store.create, hmk] at h
    rw [Prod.mk.injEq] at h
    obtain ⟨_, h2⟩ := h
    subst h2
    intro q
    rfl
  · simp only [Store.create, hmk] at h
    obtain ⟨hpre_i, hpre_ii⟩ := mkdirAll_prefix fs pre fs₁ hmk
    have hfr1 : ∀ q, fileAt fs₁ q = fileAt fs q := osMkdirAll_fileAt fs _ fs₁ hmk
    have hfresh : fileAt fs
        (prefixSegs pre ++ [tmpFresh (childrenAt fs₁ (prefixSegs pre))]) =
        none :=
      fileAt_none_of_find _ _ (hpre_ii _ (findC_tmpFresh _))
    rcases hpf1 : putFile fs₁
        (prefixSegs pre ++ [tmpFresh (childrenAt fs₁ (prefixSegs pre))]) [] now
        with e₀ | fs₂
    · simp only [hpf1] at h
      rw [Prod.mk.injEq] at h
      obtain ⟨_, h2⟩ := h
      subst h2
      exact hfr1
    · simp only [hpf1] at h
      obtain ⟨hat2, hfr2⟩ := putFile_fileAt fs₁ _ [] now fs₂ hpf1
      have hquiet2 := osRemoveQuiet_file fs₂ _ now [] hat2
      by_cases hg : r.fail.isSome ∧ r.bytes.length < 512
      · rw [if_pos hg] at h
        rw [Prod.mk.injEq] at h
        obtain ⟨_, h2⟩ := h
        subst h2
        intro q
        rw [hquiet2 q]
        by_cases hqt : q =
            prefixSegs pre ++ [tmpFresh (childrenAt fs₁ (prefixSegs pre))]
        · rw [if_pos hqt, hqt, hfresh]
        · rw [if_neg hqt, hfr2 q hqt, hfr1]
      · rw [if_neg hg] at h
        rcases hpf2 : putFile fs₂
            (prefixSegs pre ++ [tmpFresh (childrenAt fs₁ (prefixSegs pre))])
            r.bytes now with e₀ | fs₃
        · simp only [hpf2] at h
          rw [Prod.mk.injEq] at h
          obtain ⟨_, h2⟩ := h
          subst h2
          intro q
          rw [hquiet2 q]
          by_cases hqt : q =
              prefixSegs pre ++ [tmpFresh (childrenAt fs₁ (prefixSegs pre))]
          · rw [if_pos hqt, hqt, hfresh]
          · rw [if_neg hqt, hfr2 q hqt, hfr1]
        · simp only [hpf2] at h
          obtain ⟨hat3, hfr3⟩ := putFile_fileAt fs₂ _ r.bytes now fs₃ hpf2
          have hquiet3 := osRemoveQuiet_file fs₃ _ now r.bytes hat3
          rcases hrf : r.fail with _ | e₀
          · simp only [hrf] at h
            rcases hct : osChtimes fs₃
                (prefixSegs pre ++ shardSegs (mkFileInfo r.bytes).Name) now
                with e₁ | fs₄
            · simp only [hct] at h
              rcases hmk2 : osMkdirAll fs₃
                  (prefixSegs pre ++ shardSegs (mkFileInfo r.bytes).Name).dropLast
                  with e₂ | fs₅
              · simp only [hmk2] at h
                rw [Prod.mk.injEq] at h
                obtain ⟨_, h2⟩ := h
                subst h2
                intro q
                rw [hquiet3 q]
                by_cases hqt : q =
                    prefixSegs pre ++ [tmpFresh (childrenAt fs₁ (prefixSegs pre))]
                · rw [if_pos hqt, hqt, hfresh]
                · rw [if_neg hqt, hfr3 q hqt, hfr2 q hqt, hfr1]
              · simp only [hmk2] at h
                have hfr5 : ∀ q, fileAt fs₅ q = fileAt fs₃ q :=
                  osMkdirAll_fileAt fs₃ _ fs₅ hmk2
                rcases hrn : osRename fs₅
                    (prefixSegs pre ++ [tmpFresh (childrenAt fs₁ (prefixSegs pre))])
                    (prefixSegs pre ++ shardSegs (mkFileInfo r.bytes).Name)
                    with e₂ | fs₆
                · simp only [hrn] at h
                  rw [Prod.mk.injEq] at h
                  obtain ⟨_, h2⟩ := h
                  subst h2
                  have hat5 : fileAt fs₅
                      (prefixSegs pre ++ [tmpFresh (childrenAt fs₁ (prefixSegs pre))]) =
                      some (now, r.bytes, false) := by
                    rw [hfr5]
                    exact hat3
                  have hquiet5 := osRemoveQuiet_file fs₅ _ now r.bytes hat5
                  intro q
                  rw [hquiet5 q]
                  by_cases hqt : q =
                      prefixSegs pre ++ [tmpFresh (childrenAt fs₁ (prefixSegs pre))]
                  · rw [if_pos hqt, hqt, hfresh]
                  · rw [if_neg hqt, hfr5, hfr3 q hqt, hfr2 q hqt, hfr1]
                · simp only [hrn] at h
                  rw [Prod.mk.injEq] at h
                  exact Except.noConfusion h.1
            · simp only [hct] at h
              rw [Prod.mk.injEq] at h
              exact Except.noConfusion h.1
          · simp only [hrf] at h
            rw [Prod.mk.injEq] at h
            obtain ⟨_, h2⟩ := h
            subst h2
            intro q
            rw [hquiet3 q]
            by_cases hqt : q =
                prefixSegs pre ++ [tmpFresh (childrenAt fs₁ (prefixSegs pre))]
            · rw [if_pos hqt, hqt, hfresh]
            · rw [if_neg hqt, hfr3 q hqt, hfr2 q hqt, hfr1]

/-! ## Claim C1: round trip -/

/-- **C1.**  Round-trip: if `Create(prefix, bytes)` succeeds on a store whose
content-addressed slot for those bytes is empty or already holds a blob with
exactly those bytes (which is what content addressing guarantees), the
returned `FileInfo` carries the content name computed from the bytes, and
`Open(prefix, Name)` succeeds returning exactly the original bytes. -/
theorem C1_round_trip (fs : FS) (pre : String) (r : RStream) (now now₂ : Int)
    (fi : FileInfo) (fs' : FS)
    (h : Store.create fs pre r now = (.ok fi, fs'))
    (hr : r.fail = none)
    (hpath : FS.find? fs (blobPath pre (encodeName r.bytes)) = none ∨
      ∃ m lk, FS.find? fs (blobPath pre (encodeName r.bytes)) =
        some (.file m r.bytes lk)) :
    fi.Name = encodeName r.bytes ∧
    (Store.open fs' pre fi.Name now₂).1 = .ok r.bytes := by
  obtain ⟨hfi, ⟨lk, hbp⟩, _⟩ := create_ok_master fs pre r now fi fs' h hr hpath
  subst hfi
  refine ⟨rfl, ?_⟩
  have hlen : ¬ (mkFileInfo r.bytes).Name.length < 27 := by
    show ¬ (encodeName r.bytes).length < 27
    rw [encodeName_length]
    omega
  have hfind : FS.find? fs' (blobPath pre (mkFileInfo r.bytes).Name) =
      some (FNode.file now r.bytes lk) :=
    (fileAt_some_iff fs' _ now r.bytes lk).mp hbp
  rw [Store.open, if_neg hlen]
  rcases hct : osChtimes fs' (blobPath pre (mkFileInfo r.bytes).Name) now₂
      with e | fs₂
  · simp only [hfind, hct]
  · simp only [hfind, hct]

/-! ## Claim C3: idempotent deduplication -/

/-- **C3.**  Idempotent deduplication: two successful `Create` calls with
byte-identical content (on a store whose slot for that content is initially
empty or already correct) return `FileInfo` values with the identical content
name, and after the second call the store holds exactly what the first call
left at the content-addressed path — with a refreshed modification time —
and no other path changed: the second call installs no second copy. -/
theorem C3_idempotent_dedup (fs : FS) (pre : String) (r r' : RStream)
    (now now₂ : Int) (fi₁ fi₂ : FileInfo) (fs₁ fs₂ : FS)
    (h₁ : Store.create fs pre r now = (.ok fi₁, fs₁))
    (h₂ : Store.create fs₁ pre r' now₂ = (.ok fi₂, fs₂))
    (hr : r.fail = none) (hr' : r'.fail = none) (hb : r'.bytes = r.bytes)
    (hpath : FS.find? fs (blobPath pre (encodeName r.bytes)) = none ∨
      ∃ m lk, FS.find? fs (blobPath pre (encodeName r.bytes)) =
        some (.file m r.bytes lk)) :
    fi₂.Name = fi₁.Name ∧
    (∃ lk, fileAt fs₂ (blobPath pre (encodeName r.bytes)) =
      some (now₂, r.bytes, lk)) ∧
    ∀ q, q ≠ blobPath pre (encodeName r.bytes) → fileAt fs₂ q = fileAt fs₁ q := by
  obtain ⟨hfi₁, ⟨lk₁, hbp₁⟩, _⟩ := create_ok_master fs pre r now fi₁ fs₁ h₁ hr hpath
  have hpath₂ : FS.find? fs₁ (blobPath pre (encodeName r'.bytes)) = none ∨
      ∃ m lk, FS.find? fs₁ (blobPath pre (encodeName r'.bytes)) =
        some (.file m r'.bytes lk) := by
    rw [hb]
    exact Or.inr ⟨now, lk₁, (fileAt_some_iff fs₁ _ now r.bytes lk₁).mp hbp₁⟩
  obtain ⟨hfi₂, hex, hfr⟩ := create_ok_master fs₁ pre r' now₂ fi₂ fs₂ h₂ hr' hpath₂
  subst hfi₁
  subst hfi₂
  rw [hb] at hex hfr ⊢
  exact ⟨rfl, hex, hfr⟩

/-! ## Claim C5: age-filtered collection (corrected) -/

/-- **C5, counterexample.**  The claim "Clean leaves every directory
untouched" is false: `store.go`'s walk function prunes the two parent
directories of every deleted file.  On the store
`a/bc/f` (one file, modification time `0`), `Clean` with lifetime `5` at
time `10` removes the file *and both directories*, leaving an empty root:
the directory `a` existed before and is gone afterwards. -/
theorem C5_counterexample :
    Store.clean
        (some [("a", FNode.dir [("bc", FNode.dir [("f", FNode.file 0 [1] false)])])])
        5 10 = (.ok (), some []) ∧
    FS.find?
        (some [("a", FNode.dir [("bc", FNode.dir [("f", FNode.file 0 [1] false)])])])
        ["a"] ≠ none ∧
    FS.find? (some ([] : List (String × FNode))) ["a"] = none := by
  refine ⟨?_, ?_, rfl⟩
  · simp [Store.clean, walkEntries]
  · intro hc
    exact Option.noConfusion hc

/-- **C5, amended.**  Age-filtered collection as the code implements it: for
every lifetime `D > 0`, on a tree with no faulting entries `Clean(D)` at time
`now` succeeds, after it no unlocked file with modification time at or
before `now - D` remains anywhere in the store, every file that is newer (or
whose removal fails, modelled as locked) survives unchanged, and running
`Clean` when the store root does not exist succeeds as a no-op — but
directories emptied by the deletions are pruned, not left untouched. -/
theorem C5_age_filtered_clean (cs : List (String × FNode)) (D now : Int)
    (hD : 0 < D) (hnb : noBadL cs = true) :
    Store.clean none D now = (.ok (), none) ∧
    (Store.clean (some cs) D now).1 = .ok () ∧
    (∀ q m c lk, fileAt (Store.clean (some cs) D now).2 q = some (m, c, lk) →
      now - D < m ∨ lk = true) ∧
    (∀ q m c lk, (now - D < m ∨ lk = true) →
      fileAt (some cs) q = some (m, c, lk) →
      fileAt (Store.clean (some cs) D now).2 q = some (m, c, lk)) :=
  ⟨clean_none_noop D now hD, (clean_staleFree cs D now hD hnb).1,
    (clean_staleFree cs D now hD hnb).2,
    fun q m c lk hf hq => clean_keep cs D now hD q m c lk hf hq⟩

/-! ## Claim C6: Clean walk-error tolerance (corrected) -/

/-- **C6, counterexample.**  The claim "an error reported for an individual
entry of the walk does not abort the sweep" is false: the walk function's
first statement is `if err != nil { return err }`, which aborts the whole
walk.  On a store whose first entry `a` faults on `lstat` and whose second
entry `b` is a stale unlocked file, `Clean` returns the entry's error and
the sweep never reaches `b`: the stale file survives. -/
theorem C6_counterexample :
    Store.clean (some [("a", FNode.bad GErr.other), ("b", FNode.file 0 [2] false)])
        5 10 =
      (.error .other,
        some [("a", FNode.bad GErr.other), ("b", FNode.file 0 [2] false)]) ∧
    fileAt (some [("a", FNode.bad GErr.other), ("b", FNode.file 0 [2] false)])
        ["b"] = some (0, [2], false) ∧
    ¬ ((10 : Int) - 5 < 0) := by
  refine ⟨?_, rfl, by decide⟩
  simp [Store.clean, walkEntries]

/-- **C6, amended.**  What the code actually tolerates: only *removal*
failures are skipped (`os.Remove`'s error is discarded and the walk
continues; a locked stale file survives while the sweep still completes and
reports success), whereas an entry error handed to the walk function —
other than the store root not existing — aborts the sweep.  On a tree with
no faulting entries `Clean` reports success, and every locked file — even a
stale one whose removal would fail — survives unchanged. -/
theorem C6_remove_errors_skipped (cs : List (String × FNode)) (D now : Int)
    (hD : 0 < D) (hnb : noBadL cs = true) :
    (Store.clean (some cs) D now).1 = .ok () ∧
    ∀ q m c, fileAt (some cs) q = some (m, c, true) →
      fileAt (Store.clean (some cs) D now).2 q = some (m, c, true) :=
  ⟨(clean_staleFree cs D now hD hnb).1,
    fun q m c hq => clean_keep cs D now hD q m c true (Or.inr rfl) hq⟩

/-! ## Witnesses for the claims with hypotheses -/

set_option maxRecDepth 100000 in
theorem C1_witness :
    (mkFileInfo ([] : List Nat)).Name = encodeName [] ∧
    (Store.open
        (some [("A", FNode.dir [("AA",
          FNode.dir [("AANQdjNmPALIE6YAJmOz4Qn4", FNode.file 0 [] false)])])])
        "" (mkFileInfo ([] : List Nat)).Name 3).1 = .ok [] :=
  C1_round_trip (some []) "" ⟨[], none⟩ 0 3 (mkFileInfo [])
    (some [("A", FNode.dir [("AA",
      FNode.dir [("AANQdjNmPALIE6YAJmOz4Qn4", FNode.file 0 [] false)])])])
    (by rfl) rfl (Or.inl rfl)

set_option maxRecDepth 100000 in
theorem C3_witness :
    (mkFileInfo ([] : List Nat)).Name = (mkFileInfo ([] : List Nat)).Name ∧
    (∃ lk, fileAt
        (some [("A", FNode.dir [("AA",
          FNode.dir [("AANQdjNmPALIE6YAJmOz4Qn4", FNode.file 7 [] false)])])])
        (blobPath "" (encodeName [])) = some (7, [], lk)) ∧
    ∀ q, q ≠ blobPath "" (encodeName []) →
      fileAt (some [("A", FNode.dir [("AA",
        FNode.dir [("AANQdjNmPALIE6YAJmOz4Qn4", FNode.file 7 [] false)])])]) q =
      fileAt (some [("A", FNode.dir [("AA",
        FNode.dir [("AANQdjNmPALIE6YAJmOz4Qn4", FNode.file 0 [] false)])])]) q :=
  C3_idempotent_dedup (some []) "" ⟨[], none⟩ ⟨[], none⟩ 0 7
    (mkFileInfo []) (mkFileInfo [])
    (some [("A", FNode.dir [("AA",
      FNode.dir [("AANQdjNmPALIE6YAJmOz4Qn4", FNode.file 0 [] false)])])])
    (some [("A", FNode.dir [("AA",
      FNode.dir [("AANQdjNmPALIE6YAJmOz4Qn4", FNode.file 7 [] false)])])])
    (by rfl) (by rfl) rfl rfl rfl (Or.inl rfl)

theorem C4_witness :
    fileAt (some [("z", FNode.file 3 [9] false)]) ["z"] =
      fileAt (some [("z", FNode.file 3 [9] false)]) ["z"] :=
  C4_create_error_atomic (some [("z", FNode.file 3 [9] false)]) ""
    ⟨[], some GErr.other⟩ 0 GErr.other (some [("z", FNode.file 3 [9] false)])
    (by rfl) ["z"]

theorem C5_witness :
    Store.clean none 5 10 = (.ok (), none) ∧
    (Store.clean (some [("k", FNode.file 7 [] false)]) 5 10).1 = .ok () ∧
    (∀ q m c lk,
      fileAt (Store.clean (some [("k", FNode.file 7 [] false)]) 5 10).2 q =
        some (m, c, lk) → 10 - 5 < m ∨ lk = true) ∧
    (∀ q m c lk, ((10 : Int) - 5 < m ∨ lk = true) →
      fileAt (some [("k", FNode.file 7 [] false)]) q = some (m, c, lk) →
      fileAt (Store.clean (some [("k", FNode.file 7 [] false)]) 5 10).2 q =
        some (m, c, lk)) :=
  C5_age_filtered_clean [("k", FNode.file 7 [] false)] 5 10 (by decide)
    (by simp [noBadL])

theorem C6_witness :
    (Store.clean (some [("b", FNode.file 0 [3] true)]) 5 10).1 = .ok () ∧
    ∀ q m c, fileAt (some [("b", FNode.file 0 [3] true)]) q = some (m, c, true) →
      fileAt (Store.clean (some [("b", FNode.file 0 [3] true)]) 5 10).2 q =
        some (m, c, true) :=
  C6_remove_errors_skipped [("b", FNode.file 0 [3] true)] 5 10 (by decide)
    (by simp [noBadL])

set_option maxRecDepth 100000 in
theorem C7_witness :
    (Store.create
        (some [("A", FNode.dir [("AA",
          FNode.dir [("AANQdjNmPALIE6YAJmOz4Qn4", FNode.file 5 [9] false)])])])
        "" ⟨[], none⟩ 9).1 = .ok (mkFileInfo []) ∧
    fileAt (Store.create
        (some [("A", FNode.dir [("AA",
          FNode.dir [("AANQdjNmPALIE6YAJmOz4Qn4", FNode.file 5 [9] false)])])])
        "" ⟨[], none⟩ 9).2 (blobPath "" (encodeName [])) = some (9, [9], false) :=
  ⟨(C7_dedup_touch
      (some [("A", FNode.dir [("AA",
        FNode.dir [("AANQdjNmPALIE6YAJmOz4Qn4", FNode.file 5 [9] false)])])])
      "" ⟨[], none⟩ 9 5 [9] false rfl (by rfl)).1,
    (C7_dedup_touch
      (some [("A", FNode.dir [("AA",
        FNode.dir [("AANQdjNmPALIE6YAJmOz4Qn4", FNode.file 5 [9] false)])])])
      "" ⟨[], none⟩ 9 5 [9] false rfl (by rfl)).2.1⟩

theorem C10_witness :
    ∃ lk, fileAt
        (some [("A", FNode.dir [("BC",
          FNode.dir [("DEFGHIJKLMNOPQRSTUVWXYZa", FNode.file 10 [9] false)])])])
        (blobPath "" "ABCDEFGHIJKLMNOPQRSTUVWXYZa") = some (10, [9], lk) ∧
      fileAt (Store.clean
          (some [("A", FNode.dir [("BC",
            FNode.dir [("DEFGHIJKLMNOPQRSTUVWXYZa", FNode.file 10 [9] false)])])])
          5 12).2
        (blobPath "" "ABCDEFGHIJKLMNOPQRSTUVWXYZa") = some (10, [9], lk) :=
  C10_open_refreshes_mtime
    (some [("A", FNode.dir [("BC",
      FNode.dir [("DEFGHIJKLMNOPQRSTUVWXYZa", FNode.file 5 [9] false)])])])
    "" "ABCDEFGHIJKLMNOPQRSTUVWXYZa" 10 5 12 [9]
    (some [("A", FNode.dir [("BC",
      FNode.dir [("DEFGHIJKLMNOPQRSTUVWXYZa", FNode.file 10 [9] false)])])])
    (by rfl) (by decide) (by decide)
